import Mathlib

/-!
# DapperDox discovery: spec transform pipeline and discovery cycle

A shallow embedding of `discover/apispecs.go`, `discover/discover.go`,
`discover/openapi.go`, `discover/router_register.go`, `discover/models/service.go`
and `discover/models/event.go`, followed by theorems about the embedded
functions.

Conventions of the embedding:

* a Go `map[string]V` is a `GoMap V`: a key/value list without duplicate keys;
  `range` visits the entries of the list in order (Go leaves the order open,
  and every statement below that is about map contents is stated through
  `GoMap.get`, which does not depend on it);
* a nil pointer or nil map is `none`;
* a run-time panic is recorded by a `panicked` flag next to the state the
  mutated object had when the call ended;
* calls that leave the process (network fetch, file load, document analysis,
  JSON serialisation) are fields of `Env`; configuration read through viper
  is a `Config`.
-/

set_option linter.dupNamespace false

namespace Discover

/-! ## Go maps -/

/-- First value stored under `k` in a key/value list. -/
def lookupKey {V : Type} : List (String × V) → String → Option V
  | [], _ => none
  | (k', v) :: rest, k => if k' = k then some v else lookupKey rest k

/-- All entries whose key differs from `k`. -/
def eraseKey {V : Type} : List (String × V) → String → List (String × V)
  | [], _ => []
  | (k', v) :: rest, k => if k' = k then eraseKey rest k else (k', v) :: eraseKey rest k

theorem keys_eraseKey_subset {V : Type} (l : List (String × V)) (k x : String) :
    x ∈ (eraseKey l k).map Prod.fst → x ∈ l.map Prod.fst := by
  induction l with
  | nil => simp [eraseKey]
  | cons e rest ih =>
    obtain ⟨k', v⟩ := e
    by_cases h : k' = k
    · simp only [eraseKey, h, if_true]
      intro hx
      exact List.mem_cons_of_mem _ (ih hx)
    · simp only [eraseKey, h, if_false, List.map_cons, List.mem_cons]
      rintro (hx | hx)
      · exact Or.inl hx
      · exact Or.inr (ih hx)

theorem not_mem_keys_eraseKey {V : Type} (l : List (String × V)) (k : String) :
    k ∉ (eraseKey l k).map Prod.fst := by
  induction l with
  | nil => simp [eraseKey]
  | cons e rest ih =>
    obtain ⟨k', v⟩ := e
    by_cases h : k' = k
    · simpa only [eraseKey, h, if_true] using ih
    · simp only [eraseKey, h, if_false, List.map_cons, List.mem_cons, not_or]
      exact ⟨fun hk => h hk.symm, ih⟩

theorem nodup_keys_eraseKey {V : Type} (l : List (String × V)) (k : String)
    (h : (l.map Prod.fst).Nodup) : ((eraseKey l k).map Prod.fst).Nodup := by
  induction l with
  | nil => simp [eraseKey]
  | cons e rest ih =>
    obtain ⟨k', v⟩ := e
    have h' := List.nodup_cons.mp h
    by_cases hk : k' = k
    · simpa only [eraseKey, hk, if_true] using ih h'.2
    · simp only [eraseKey, hk, if_false, List.map_cons]
      exact List.nodup_cons.mpr ⟨fun hx => h'.1 (keys_eraseKey_subset rest k k' hx), ih h'.2⟩

/-- A Go `map[string]V`. -/
structure GoMap (V : Type) where
  entries : List (String × V)
  nodup : (entries.map Prod.fst).Nodup

namespace GoMap

variable {V : Type}

/-- The map `make(map[string]V)`. -/
def empty : GoMap V := ⟨[], List.nodup_nil⟩

/-- The read `v, ok := m[k]`. -/
def get (m : GoMap V) (k : String) : Option V := lookupKey m.entries k

/-- The builtin `len(m)`. -/
def len (m : GoMap V) : Nat := m.entries.length

/-- The builtin `delete(m, k)`. -/
def delete (m : GoMap V) (k : String) : GoMap V :=
  ⟨eraseKey m.entries k, nodup_keys_eraseKey m.entries k m.nodup⟩

/-- The write `m[k] = v`. -/
def set (m : GoMap V) (k : String) (v : V) : GoMap V :=
  ⟨(k, v) :: eraseKey m.entries k,
    List.nodup_cons.mpr ⟨not_mem_keys_eraseKey m.entries k,
      nodup_keys_eraseKey m.entries k m.nodup⟩⟩

/-- The keys of the map. -/
def keys (m : GoMap V) : List String := m.entries.map Prod.fst

instance [DecidableEq V] : DecidableEq (GoMap V) := fun a b =>
  decidable_of_iff (a.entries = b.entries) (by cases a; cases b; simp)

end GoMap

/-- The length of a map that may be nil: `len` of a nil map is 0. -/
def lenOpt {V : Type} : Option (GoMap V) → Nat
  | none => 0
  | some m => m.len

/-- A read from a map that may be nil: reading a nil map finds nothing. -/
def getOpt {V : Type} : Option (GoMap V) → String → Option V
  | none, _ => none
  | some m, k => m.get k

/-- The entries a `range` over a map that may be nil visits. -/
def entriesOpt {V : Type} : Option (GoMap V) → List (String × V)
  | none => []
  | some m => m.entries

/-! ## Strings -/

/-- The call `strings.ToLower`, on the ASCII letters. -/
def ToLower (s : String) : String := String.mk (s.data.map Char.toLower)

/-- Whether `sub` starts the character list `s`. -/
def hasPrefixChars : List Char → List Char → Bool
  | _, [] => true
  | [], _ :: _ => false
  | c :: cs, d :: ds => c == d && hasPrefixChars cs ds

/-- Whether `sub` occurs in the character list `s`. -/
def containsChars : List Char → List Char → Bool
  | [], sub => sub.isEmpty
  | c :: cs, sub => hasPrefixChars (c :: cs) sub || containsChars cs sub

/-- The call `strings.Contains(s, substr)`. -/
def Contains (s substr : String) : Bool := containsChars s.data substr.data

/-- The call `strings.TrimRight(s, "/")`: `s` without its trailing slashes. -/
def TrimRightSlash (s : String) : String :=
  String.mk (s.data.reverse.dropWhile (fun c => c == '/')).reverse

/-! ## The spec document (`github.com/go-openapi/spec`) -/

/-- A Go `interface{}` holding a decoded JSON value. Arrays and objects are kept as
their JSON text: the code under study never looks inside one. -/
inductive Iface where
  | null
  | str (s : String)
  | bool (b : Bool)
  | num (n : Int)
  | composite (json : String)
  deriving DecidableEq, Repr

/-- The type `spec.Extensions`, a `map[string]interface{}` that may be nil. -/
abbrev Extensions := Option (GoMap Iface)

/-- The method `Extensions.GetString`: looks the lower-cased key up and asserts that
the value is a string. -/
def Extensions.GetString (e : Extensions) (key : String) : Option String :=
  match getOpt e (ToLower key) with
  | some (Iface.str s) => some s
  | _ => none

/-- The method `Extensions.Add` on a map that is not nil: writes under the
lower-cased key. -/
def Extensions.Add (e : GoMap Iface) (key : String) (value : Iface) : GoMap Iface :=
  e.set (ToLower key) value

/-- The type `spec.Operation`: its vendor extensions and the fields that identify it. -/
structure Operation where
  Extensions : Extensions
  ID : String
  Summary : String
  Description : String
  Tags : List String
  Deprecated : Bool
  deriving DecidableEq

/-- The type `spec.PathItem`: the seven method slots of `PathItemProps`, the path
parameters, the `$ref` and the vendor extensions. -/
structure PathItem where
  Ref : String
  Extensions : Extensions
  Get : Option Operation
  Put : Option Operation
  Post : Option Operation
  Delete : Option Operation
  Options : Option Operation
  Head : Option Operation
  Patch : Option Operation
  Parameters : List String
  deriving DecidableEq

/-- The type `spec.Paths`. -/
structure Paths where
  Extensions : Extensions
  Paths : GoMap PathItem
  deriving DecidableEq

/-- The type `spec.Schema`, as far as a top-level definition is concerned. -/
structure Schema where
  Extensions : Extensions
  Title : String
  Description : String
  Typ : List String
  Required : List String
  deriving DecidableEq

/-- The type `spec.Tag`. -/
structure Tag where
  Name : String
  Description : String
  deriving DecidableEq

/-- The type `spec.SecurityScheme`. -/
structure SecurityScheme where
  Typ : String
  Name : String
  In : String
  Flow : String
  Description : String
  deriving DecidableEq

/-- The type `spec.Swagger`. A nil `SecurityDefinitions`, `Security`, `Schemes`,
`Tags` or `Definitions` is the empty value: the code only takes their `len`,
ranges over them or deletes from them. -/
structure Swagger where
  Extensions : Extensions
  Paths : Option Paths
  Definitions : GoMap Schema
  Tags : List Tag
  SecurityDefinitions : GoMap SecurityScheme
  Security : List (GoMap (List String))
  Schemes : List String
  Host : String
  BasePath : String
  deriving DecidableEq

/-! ## `discover/apispecs.go`: the transform pipeline -/

def visibilityExt : String := "x-visibility"
def groupByPrivate : String := "Private Cloud Services"
def groupByPublic : String := "Public Cloud Services"
def groupByCore : String := "Platform APIs"
def extKeyMCMPComponentType : String := "x-mcmp-component-type"
def extKeyGroupBy : String := "x-groupby"

/-- The function `isPrivate`. -/
def isPrivate (exts : Extensions) : Bool :=
  match exts.GetString visibilityExt with
  | some pv => pv == "private"
  | none => false

/-- One test `v.M != nil && isPrivate(v.M.Extensions)` of `removePrivateAPIs`
with its assignment `v.M = nil`, for the slot value `op`. -/
def clearIfPrivate (op : Option Operation) : Option Operation :=
  match op with
  | none => none
  | some o => if isPrivate o.Extensions then none else some o

/-- The five method tests of `removePrivateAPIs` on the loop variable `v`. -/
def clearPrivateMethods (v : PathItem) : PathItem :=
  let v := { v with Get := clearIfPrivate v.Get }
  let v := { v with Put := clearIfPrivate v.Put }
  let v := { v with Patch := clearIfPrivate v.Patch }
  let v := { v with Post := clearIfPrivate v.Post }
  let v := { v with Delete := clearIfPrivate v.Delete }
  v

/-- The body of the loop of `removePrivateAPIs` for the entry `(k, v)`, on the map
`m` being ranged over. -/
def removePrivateAPIsStep (m : GoMap PathItem) (kv : String × PathItem) : GoMap PathItem :=
  if isPrivate kv.2.Extensions then m.delete kv.1
  else m.set kv.1 (clearPrivateMethods kv.2)

/-- The function `removePrivateAPIs`. -/
def removePrivateAPIs (svcSpec : Swagger) : Swagger :=
  match svcSpec.Paths with
  | none => svcSpec
  | some pathsRef =>
    { svcSpec with
      Paths := some { pathsRef with
        Paths := pathsRef.Paths.entries.foldl removePrivateAPIsStep pathsRef.Paths } }

/-- The body of the loop of `removePrivateDefinitions` for the entry `(k, v)`. -/
def removePrivateDefinitionsStep (m : GoMap Schema) (kv : String × Schema) : GoMap Schema :=
  if isPrivate kv.2.Extensions then m.delete kv.1 else m

/-- The function `removePrivateDefinitions`. -/
def removePrivateDefinitions (svcSpec : Swagger) : Swagger :=
  { svcSpec with
    Definitions := svcSpec.Definitions.entries.foldl removePrivateDefinitionsStep
      svcSpec.Definitions }

/-- The function `applyGrouping`; `groupings` is the table
`viper.GetStringMapString(config.SpecGroupings)`. -/
def applyGrouping (groupings : GoMap String) (svcSpec : Swagger) : Swagger :=
  -- create extensions if non exist
  let exts : GoMap Iface :=
    match svcSpec.Extensions with
    | none => GoMap.empty
    | some m => m
  -- the switch on `svcSpec.Extensions[extKeyMCMPComponentType]`
  let componentType := exts.get extKeyMCMPComponentType
  let exts :=
    if componentType = some (Iface.str "private-cloud") then
      Extensions.Add exts extKeyGroupBy (Iface.str groupByPrivate)
    else if componentType = some (Iface.str "public-cloud") then
      Extensions.Add exts extKeyGroupBy (Iface.str groupByPublic)
    else if componentType = some (Iface.str "core") then
      Extensions.Add exts extKeyGroupBy (Iface.str groupByCore)
    else
      Extensions.Add exts extKeyGroupBy (Iface.str groupByCore)
  -- set custom grouping extension if defined
  let exts := svcSpec.Tags.foldl
    (fun e tag =>
      match groupings.get tag.Name with
      | some customgroup => Extensions.Add e extKeyGroupBy (Iface.str customgroup)
      | none => e)
    exts
  { svcSpec with Extensions := some exts }

/-- How a call that mutates an object in place ends: the state of the object when
the call ended, and whether it ended in a run-time panic. -/
structure Exit (α : Type) where
  state : α
  panicked : Bool

/-- The function `applyRewrites`. The write `svcSpec.Extensions[k] = v` panics when
the extension map of `svcSpec` is nil; the three assignments before the loop
have been made by then. -/
def applyRewrites (rewrites svcSpec : Swagger) : Exit Swagger :=
  let svcSpec :=
    if rewrites.SecurityDefinitions.len > 0 then
      { svcSpec with SecurityDefinitions := rewrites.SecurityDefinitions }
    else svcSpec
  let svcSpec :=
    if rewrites.Security.length > 0 then { svcSpec with Security := rewrites.Security }
    else svcSpec
  let svcSpec :=
    if rewrites.Schemes.length > 0 then { svcSpec with Schemes := rewrites.Schemes }
    else svcSpec
  match entriesOpt rewrites.Extensions with
  | [] => ⟨svcSpec, false⟩
  | kv :: rest =>
    match svcSpec.Extensions with
    | none => ⟨svcSpec, true⟩
    | some exts =>
      ⟨{ svcSpec with
          Extensions := some ((kv :: rest).foldl (fun e kv => e.set kv.1 kv.2) exts) },
        false⟩

/-- A Go `[]byte`. -/
abbrev Bytes := List UInt8

/-- The type `loads.Document`; `loads.Analyzed` always fills `spec` with a freshly
allocated document. -/
structure Document where
  spec : Swagger

/-- The result of a call that returns a value and an `error`, or panics. -/
inductive Outcome (α : Type) where
  | ok (a : α)
  | err (msg : String)
  | panic (msg : String)

/-- The method `(*loads.Document).Spec`, `return d.spec`. On a nil receiver the field
read is a nil pointer dereference and the call panics: the result is `none`.
Otherwise the result is the pointer `d.spec`. -/
def Document.Spec (d : Option Document) : Option (Option Swagger) :=
  match d with
  | none => none
  | some doc => some (some doc.spec)

/-- The configuration read through viper. -/
structure Config where
  SpecRewrites : String
  SpecDir : String
  SpecGroupings : GoMap String
  DiscoveryServiceIgnoreList : List String

/-- The calls that leave the process. Each returns `none` where the Go call returns
an error. -/
structure Env where
  /-- The call `swag.YAMLDoc(path)`. -/
  YAMLDoc : String → Option Bytes
  /-- The call `loads.Analyzed(data, "")`. -/
  Analyzed : Bytes → Option Document
  /-- The call `swag.LoadFromFileOrHTTPWithTimeout(url, timeout)`. -/
  LoadFromFileOrHTTPWithTimeout : String → Option Bytes
  /-- The call `svcSpec.MarshalJSON()`. -/
  MarshalJSON : Swagger → Option Bytes

/-- Lines 98 to 106 of `processSpec`: what the call does to `*svcSpec`. -/
def processSpecDoc (cfg : Config) (rewritesSpec : Option Swagger) (svcSpec : Swagger) :
    Exit Swagger :=
  let svcSpec := removePrivateAPIs svcSpec
  let svcSpec := removePrivateDefinitions svcSpec
  let svcSpec := applyGrouping cfg.SpecGroupings svcSpec
  match rewritesSpec with
  | some rewrites => applyRewrites rewrites svcSpec
  | none => ⟨svcSpec, false⟩

/-- The publish path `fmt.Sprintf("%s/%s", strings.TrimRight(SpecDir, "/"), hostname)`. -/
def publishPath (cfg : Config) (hostname : String) : String :=
  TrimRightSlash cfg.SpecDir ++ "/" ++ hostname

/-- The function `processSpec`. -/
def processSpec (cfg : Config) (env : Env) (hostname : String)
    (rewritesSpec svcSpec : Option Swagger) : Outcome (String × Bytes) :=
  match svcSpec with
  | none => Outcome.err "service spec should not be nil"
  | some doc =>
    let r := processSpecDoc cfg rewritesSpec doc
    if r.panicked then Outcome.panic "assignment to entry in nil map"
    else
      match env.MarshalJSON r.state with
      | none => Outcome.err "unable to marshal final spec"
      | some outdata => Outcome.ok (publishPath cfg hostname, outdata)

/-! ## `discover/models/service.go` -/

/-- The type `Protocol`, a Go string type. -/
structure Protocol where
  name : String
  deriving DecidableEq

def ProtocolGRPC : Protocol := ⟨"GRPC"⟩
def ProtocolHTTPS : Protocol := ⟨"HTTPS"⟩
def ProtocolHTTP2 : Protocol := ⟨"HTTP2"⟩
def ProtocolHTTP : Protocol := ⟨"HTTP"⟩
def ProtocolTCP : Protocol := ⟨"TCP"⟩
def ProtocolUDP : Protocol := ⟨"UDP"⟩
def ProtocolMongo : Protocol := ⟨"Mongo"⟩
def ProtocolRedis : Protocol := ⟨"Redis"⟩
def ProtocolUnsupported : Protocol := ⟨"UnsupportedProtocol"⟩

/-- The method `Protocol.IsHTTP`. -/
def Protocol.IsHTTP (p : Protocol) : Bool :=
  if p = ProtocolHTTP ∨ p = ProtocolHTTP2 ∨ p = ProtocolGRPC then true else false

/-- The type `Port`. -/
structure Port where
  Name : String
  Port : Int
  Protocol : Protocol
  deriving DecidableEq

/-- The type `Service`. -/
structure Service where
  Hostname : String
  Address : String
  Ports : List Port
  ExternalName : String
  LoadBalancingDisabled : Bool
  deriving DecidableEq

/-- Modelled from the spec: `models.ServiceMap`, whose source file is not part of the
sources at hand. A mapping from the identity key of a service, its hostname, to
the service. -/
structure ServiceMap where
  byHostname : GoMap Service

/-- Modelled from the spec: `List()` returns a snapshot sequence of the services. -/
def ServiceMap.List (m : ServiceMap) : List Service := m.byHostname.entries.map Prod.snd

/-! ## `discover/openapi.go` -/

/-- The function `loadSpec`. The URL is `http://<location>/swagger.json`. -/
def loadSpec (env : Env) (location : String) : Except String Swagger :=
  if location = "" then Except.error "api location has no value"
  else
    match env.LoadFromFileOrHTTPWithTimeout ("http://" ++ location ++ "/swagger.json") with
    | none => Except.error "load failed"
    | some data =>
      match env.Analyzed data with
      | none => Except.error "analysis failed"
      | some doc => Except.ok doc.spec

/-! ## `discover/discover.go` and the discovery cycle of `discover/apispecs.go` -/

/-- The function `inIgnoreList`, on the package variable `ignoredServices`: the answer
and the new value of the variable. -/
def inIgnoreList (cfg : Config) (ignoredServices : List String) (name : String) :
    Bool × List String :=
  let ignoredServices :=
    if ignoredServices.length = 0 then cfg.DiscoveryServiceIgnoreList else ignoredServices
  (ignoredServices.any (fun svc => Contains name svc), ignoredServices)

/-- What the service loop of `fetchAPISpecs` has done so far: the local `newSpecs`, the
locations handed to `loadSpec` (oldest first), the package variable
`ignoredServices`, and whether the loop ended in a panic. -/
structure LoopState where
  newSpecs : GoMap Bytes
  attempts : List String
  ignoredServices : List String
  panicked : Bool

/-- The location `fmt.Sprintf("%s:%d", hostName, portNum)`. -/
def location (hostName : String) (portNum : Int) : String :=
  hostName ++ ":" ++ toString portNum

/-- The inner loop of `fetchAPISpecs`, over the ports of one service. -/
def portLoop (cfg : Config) (env : Env) (rewritesDoc : Option Document) (hostName : String) :
    List Port → LoopState → LoopState
  | [], st => st
  | port :: rest, st =>
    if port.Protocol.IsHTTP = false then portLoop cfg env rewritesDoc hostName rest st
    else
      let st := { st with attempts := st.attempts ++ [location hostName port.Port] }
      match loadSpec env (location hostName port.Port) with
      | Except.error _ => portLoop cfg env rewritesDoc hostName rest st
      | Except.ok svcSpec =>
        match Document.Spec rewritesDoc with
        | none => { st with panicked := true }
        | some rewritesSpec =>
          match processSpec cfg env hostName rewritesSpec (some svcSpec) with
          | Outcome.panic _ => { st with panicked := true }
          | Outcome.err _ => portLoop cfg env rewritesDoc hostName rest st
          | Outcome.ok (path, data) =>
            portLoop cfg env rewritesDoc hostName rest
              { st with newSpecs := st.newSpecs.set path data }

/-- The outer loop of `fetchAPISpecs`, over the services returned by `List()`. -/
def serviceLoop (cfg : Config) (env : Env) (rewritesDoc : Option Document) :
    List Service → LoopState → LoopState
  | [], st => st
  | service :: rest, st =>
    if service.Hostname = "" then serviceLoop cfg env rewritesDoc rest st
    else
      let r := inIgnoreList cfg st.ignoredServices service.Hostname
      let st := { st with ignoredServices := r.2 }
      if r.1 then serviceLoop cfg env rewritesDoc rest st
      else
        let st := portLoop cfg env rewritesDoc service.Hostname service.Ports st
        if st.panicked then st else serviceLoop cfg env rewritesDoc rest st

/-- Lines 31 to 49 of `fetchAPISpecs`: `none` when the function returns nil there,
otherwise the value of `rewritesDoc`, a nil pointer when no rewrites are configured. -/
def loadRewritesDoc (cfg : Config) (env : Env) : Option (Option Document) :=
  if cfg.SpecRewrites ≠ "" then
    match env.YAMLDoc cfg.SpecRewrites with
    | none => none
    | some data =>
      match env.Analyzed data with
      | none => none
      | some doc => some (some doc)
  else some none

/-- How a call of `fetchAPISpecs` ends: the returned map (nil is `none`; without
meaning when the loop panicked) and the final state of the loop. -/
structure FetchRun where
  ret : Option (GoMap Bytes)
  loop : LoopState

/-- The function `fetchAPISpecs`; `services` is the snapshot `d.data.services.List()`. -/
def fetchAPISpecs (cfg : Config) (env : Env) (services : List Service)
    (ignoredServices : List String) : FetchRun :=
  let start : LoopState := ⟨GoMap.empty, [], ignoredServices, false⟩
  match loadRewritesDoc cfg env with
  | none => ⟨none, start⟩
  | some rewritesDoc =>
    let st := serviceLoop cfg env rewritesDoc services start
    if st.newSpecs.len > 0 then ⟨some st.newSpecs, st⟩ else ⟨none, st⟩

/-- The state of the discovery mechanism: the catalog `d.data.services`, the published
set `d.specs` and the package variable `ignoredServices`. -/
structure State where
  services : ServiceMap
  specs : GoMap Bytes
  ignoredServices : List String

/-- The method `Discoverer.discover`. -/
def discover (cfg : Config) (env : Env) (d : State) : Exit State :=
  let run := fetchAPISpecs cfg env d.services.List d.ignoredServices
  let d := { d with ignoredServices := run.loop.ignoredServices }
  if run.loop.panicked then ⟨d, true⟩
  else if lenOpt run.ret = 0 then ⟨d, false⟩
  else
    match run.ret with
    | some specs => ⟨{ d with specs := specs }, false⟩
    | none => ⟨d, false⟩

/-! ## Notions used in the statements, and concrete documents -/

/-- An extension map carries the visibility flag `"private"`: the value under the key
`x-visibility` is the string `private`. -/
def flaggedPrivate (e : Extensions) : Prop :=
  getOpt e "x-visibility" = some (Iface.str "private")

instance (e : Extensions) : Decidable (flaggedPrivate e) := by
  unfold flaggedPrivate; infer_instance

/-- A method slot once a flagged operation is cleared: empty when it held an operation
flagged private, as before otherwise. -/
def slotAfter (op : Option Operation) : Option Operation :=
  match op with
  | some o => if flaggedPrivate o.Extensions then none else some o
  | none => none

/-- An extension map with the single entry `k ↦ v`. -/
def ext1 (k : String) (v : Iface) : Extensions := some (GoMap.empty.set k v)

/-- An operation without extensions. -/
def op0 : Operation := ⟨none, "", "", "", [], false⟩

/-- A path item without operations. -/
def item0 : PathItem := ⟨"", none, none, none, none, none, none, none, none, []⟩

/-- A document without paths, definitions, tags or extensions. -/
def doc0 : Swagger := ⟨none, none, GoMap.empty, [], GoMap.empty, [], [], "", ""⟩

/-- An operation flagged `x-visibility: private`. -/
def privateOp : Operation := { op0 with Extensions := ext1 "x-visibility" (Iface.str "private") }

/-- A document whose only path `/pets` has a HEAD operation flagged private. -/
def headDoc : Swagger :=
  { doc0 with
    Paths := some ⟨none, GoMap.empty.set "/pets" { item0 with Head := some privateOp }⟩ }

/-- The group label `applyGrouping` derives from the value found under
`x-mcmp-component-type` (`none` when the key or the whole map is missing). -/
def defaultGroup (componentType : Option Iface) : String :=
  if componentType = some (Iface.str "private-cloud") then "Private Cloud Services"
  else if componentType = some (Iface.str "public-cloud") then "Public Cloud Services"
  else "Platform APIs"

/-- The overrides of the declared tags that have one, in declaration order. -/
def tagOverrides (groupings : GoMap String) (tags : List Tag) : List String :=
  tags.filterMap (fun tag => groupings.get tag.Name)

/-- A configuration without rewrites, groupings or ignore list, publishing under `specs/`. -/
def cfg0 : Config := ⟨"", "specs/", GoMap.empty, []⟩

/-- A policy document whose only content is the extension `X-Custom: "on"`. -/
def customPolicy : Swagger := { doc0 with Extensions := ext1 "X-Custom" (Iface.str "on") }

/-- The ports of a service the cycle fetches: those whose protocol `IsHTTP`, in port
order. -/
def httpPorts (s : Service) : List Port := s.Ports.filter (fun p => p.Protocol.IsHTTP)

/-- The locations of the ports `ports` of the host `hostName` that `IsHTTP`, in port
order. -/
def httpLocations (hostName : String) (ports : List Port) : List String :=
  (ports.filter (fun p => p.Protocol.IsHTTP)).map (fun p => location hostName p.Port)

/-- A service the cycle does not skip: its hostname is not empty and `inIgnoreList`
answers no, where `ignoredServices` is the package variable as the cycle starts. -/
def eligible (cfg : Config) (ignoredServices : List String) (s : Service) : Bool :=
  s.Hostname ≠ "" && !(inIgnoreList cfg ignoredServices s.Hostname).1

/-- The locations `hostname:port` of the services that are not skipped and of their
ports that `IsHTTP`, in the order of the services and of their ports. -/
def expectedAttempts (cfg : Config) (ignoredServices : List String) (services : List Service) :
    List String :=
  (services.filter (eligible cfg ignoredServices)).flatMap
    (fun s => httpLocations s.Hostname s.Ports)

/-- A service `svc` with one HTTP port, 80. -/
def svcHTTP : Service := ⟨"svc", "", [⟨"http", 80, ProtocolHTTP⟩], "", false⟩

/-- An environment in which every load, analysis and serialisation succeeds, with the
empty document `doc0`. -/
def envOK : Env :=
  { YAMLDoc := fun _ => some []
    Analyzed := fun _ => some ⟨doc0⟩
    LoadFromFileOrHTTPWithTimeout := fun _ => some []
    MarshalJSON := fun _ => some [] }

/-- An environment in which the rewrite policy cannot be loaded and everything else
succeeds. -/
def envNoPolicy : Env := { envOK with YAMLDoc := fun _ => none }

/-- The configuration `cfg0` with a rewrite-policy source. -/
def cfgRewrites : Config := { cfg0 with SpecRewrites := "rewrites.yaml" }

/-- A state whose catalog holds `svcHTTP` and whose published set holds one entry. -/
def stateOne : State :=
  { services := ⟨GoMap.empty.set "svc" svcHTTP⟩
    specs := GoMap.empty.set "specs/old" [1]
    ignoredServices := [] }

/-- What a cycle with the loaded policy `policy` publishes for a service with a single
HTTP port: the serialisation of the transformed document of that port, if the
document loads and serialises. -/
def transformedBytes (cfg : Config) (env : Env) (policy : Swagger) (s : Service) :
    Option Bytes :=
  match httpPorts s with
  | [p] =>
    match loadSpec env (location s.Hostname p.Port) with
    | Except.ok svcSpec => env.MarshalJSON (processSpecDoc cfg (some policy) svcSpec).state
    | Except.error _ => none
  | _ => none

/-- The effect on `newSpecs` of one round of the service loop, for a service that is
not skipped and has a single HTTP port. -/
def publishStep (cfg : Config) (env : Env) (policy : Swagger) (m : GoMap Bytes) (s : Service) :
    GoMap Bytes :=
  match transformedBytes cfg env policy s with
  | some data => m.set (publishPath cfg s.Hostname) data
  | none => m

/-- A service `a` with one HTTP port, 80, and a TCP port. -/
def svcA : Service := ⟨"a", "", [⟨"http", 80, ProtocolHTTP⟩, ⟨"db", 5432, ProtocolTCP⟩], "", false⟩

/-- A service `b` with one GRPC port, 9090. -/
def svcB : Service := ⟨"b", "", [⟨"grpc", 9090, ProtocolGRPC⟩], "", false⟩

/-- An environment in which the fetch from `a:80` fails and everything else succeeds;
a document serialises to the one byte 7. -/
def envAFails : Env :=
  { envOK with
    LoadFromFileOrHTTPWithTimeout := fun url =>
      if url = "http://a:80/swagger.json" then none else some []
    MarshalJSON := fun _ => some [7] }

/-- An environment in which the policy loads and every fetch of a service document
fails. -/
def envFetchFails : Env := { envOK with LoadFromFileOrHTTPWithTimeout := fun _ => none }

/-- A document with the component type `public-cloud` and the tags `billing`, `misc`
and `users`, in that order. -/
def taggedDoc : Swagger :=
  { doc0 with
    Extensions := ext1 "x-mcmp-component-type" (Iface.str "public-cloud")
    Tags := [⟨"billing", ""⟩, ⟨"misc", ""⟩, ⟨"users", ""⟩] }

/-- An override table for the tags `billing` and `users`. -/
def groupings2 : GoMap String := (GoMap.empty.set "billing" "Billing").set "users" "Identity"

/-- A document with the path `/a`, flagged `x-visibility: "Private"`, whose GET is
flagged private and whose PUT is not, the path `/b`, flagged private, and the
definitions `Kept` and `Secret`, the second flagged private. -/
def mixedDoc : Swagger :=
  { doc0 with
    Paths := some ⟨none,
      (GoMap.empty.set "/a"
        { item0 with
          Extensions := ext1 "x-visibility" (Iface.str "Private")
          Get := some privateOp
          Put := some op0 }).set "/b"
        { item0 with Extensions := ext1 "x-visibility" (Iface.str "private"), Get := some op0 }⟩
    Definitions :=
      (GoMap.empty.set "Kept" ⟨none, "", "", [], []⟩).set "Secret"
        ⟨ext1 "x-visibility" (Iface.str "private"), "", "", [], []⟩ }


/-! ## `discover/models/service.go`: protocol names and service keys -/

/-- The function `unicode.ToLower` on one rune: the ASCII letters `A` to `Z` are
lowered, the other ASCII runes are kept, and a rune beyond ASCII is mapped by
the case table of the `unicode` package, the parameter `table`. -/
def unicodeToLower (table : Char → Char) (r : Char) : Char :=
  if r.val ≤ 127 then r.toLower else table r

/-- The call `strings.ToLower` on any string: `unicode.ToLower` rune by rune. On a string
of ASCII runes it is `ToLower`. -/
def stringsToLower (table : Char → Char) (s : String) : String :=
  String.mk (s.data.map (unicodeToLower table))

/-- The function `ConvertCaseInsensitiveStringToProtocol`. -/
def ConvertCaseInsensitiveStringToProtocol (table : Char → Char) (protocolAsString : String) :
    Protocol :=
  let lowered := stringsToLower table protocolAsString
  if lowered = "tcp" then ProtocolTCP
  else if lowered = "udp" then ProtocolUDP
  else if lowered = "grpc" then ProtocolGRPC
  else if lowered = "http" then ProtocolHTTP
  else if lowered = "http2" then ProtocolHTTP2
  else if lowered = "https" then ProtocolHTTPS
  else if lowered = "mongo" then ProtocolMongo
  else if lowered = "redis" then ProtocolRedis
  else ProtocolUnsupported

/-- The order of Go strings, byte by byte; on UTF-8 it is the order of the lists of
code points. -/
def stringLE (a b : String) : Prop := a.data ≤ b.data

instance : DecidableRel stringLE := fun a b => by
  unfold stringLE; infer_instance

/-- The call `sort.Strings`: the ascending rearrangement of the slice. Equal strings are
indistinguishable, so every sorting algorithm returns the same slice; the one
used here is insertion sort. -/
def sortStrings (l : List String) : List String := l.insertionSort stringLE

/-- The last loop of `serviceKey`, from the index `i` on: a comma before every name but
the first, then the name. -/
def writeNames : Nat → List String → String → String
  | _, [], buffer => buffer
  | i, name :: rest, buffer =>
    writeNames (i + 1) rest ((if i > 0 then buffer ++ "," else buffer) ++ name)

/-- The function `serviceKey`. -/
def serviceKey (hostname : String) (servicePorts : List Port) : String :=
  let buffer := hostname
  if servicePorts.length > 0 then
    let ports := servicePorts.foldl
      (fun ports p => if p.Name = "" then ports else ports ++ [p.Name]) []
    let buffer := if ports.length > 0 then buffer ++ "|" else buffer
    let ports := sortStrings ports
    writeNames 0 ports buffer
  else buffer

/-- The eight protocol names of `ConvertCaseInsensitiveStringToProtocol`, each with its
protocol. -/
def protocolNames : List (String × Protocol) :=
  [("tcp", ProtocolTCP), ("udp", ProtocolUDP), ("grpc", ProtocolGRPC), ("http", ProtocolHTTP),
    ("http2", ProtocolHTTP2), ("https", ProtocolHTTPS), ("mongo", ProtocolMongo),
    ("redis", ProtocolRedis)]

/-- The nine `Protocol` constants. -/
def protocolConstants : List Protocol :=
  [ProtocolGRPC, ProtocolHTTPS, ProtocolHTTP2, ProtocolHTTP, ProtocolTCP, ProtocolUDP,
    ProtocolMongo, ProtocolRedis, ProtocolUnsupported]

/-- The rune list `s` writes the lower-case name `name` in some mix of upper and lower
case: rune by rune it is the rune of the name or its upper-case form. -/
def caseVariant : List Char → List Char → Bool
  | [], [] => true
  | c :: cs, n :: ns => (c == n || c == n.toUpper) && caseVariant cs ns
  | _, _ => false

/-- The names of the ports that have one, in port order. -/
def portNames (servicePorts : List Port) : List String :=
  (servicePorts.map (fun p => p.Name)).filter (fun name => name ≠ "")

/-! ## `discover/models/event.go` and the event handler of `discover/discover.go` -/

/-- The type `Event`, a Go `int`. -/
structure Event where
  code : Int
  deriving DecidableEq

def EventAdd : Event := ⟨0⟩
def EventUpdate : Event := ⟨1⟩
def EventDelete : Event := ⟨2⟩

/-- Modelled from the spec: `Insert(entity)` upserts by identity key, the hostname,
overwriting silently. -/
def ServiceMap.Insert (m : ServiceMap) (s : Service) : ServiceMap :=
  ⟨m.byHostname.set s.Hostname s⟩

/-- Modelled from the spec: `Delete(entity)` removes by key, a no-op if absent. -/
def ServiceMap.Delete (m : ServiceMap) (s : Service) : ServiceMap :=
  ⟨m.byHostname.delete s.Hostname⟩

/-- How a call of `updateServices` ends: the state when the call ended, whether it ended
in a panic, and whether it reached the call `d.discover()`. -/
structure Handled where
  state : State
  panicked : Bool
  discovered : Bool

/-- The method `Discoverer.updateServices`. -/
def updateServices (cfg : Config) (env : Env) (d : State) (s : Service) (e : Event) : Handled :=
  let r := inIgnoreList cfg d.ignoredServices s.Hostname
  let d := { d with ignoredServices := r.2 }
  if r.1 then ⟨d, false, false⟩
  else
    let d :=
      if e = EventAdd ∨ e = EventUpdate then { d with services := d.services.Insert s }
      else if e = EventDelete then { d with services := d.services.Delete s }
      else d
    let out := discover cfg env d
    ⟨out.state, out.panicked, true⟩

/-- The states after each event of a sequence that `updateServices` handles, each event
in the environment of its time; a panic ends the process and the sequence. -/
def handleEvents (cfg : Config) : List (Env × Service × Event) → State → List State
  | [], _ => []
  | (env, s, e) :: rest, d =>
    let h := updateServices cfg env d s e
    if h.panicked then [h.state] else h.state :: handleEvents cfg rest h.state

/-- The ignore list in effect: the list the loop of `inIgnoreList` runs over, which is
the package variable `ignoredServices`, read from the configuration when it is
empty. At the start of the process the variable is nil and the list in effect
is the configured one. -/
def ignoreList (cfg : Config) (ignoredServices : List String) : List String :=
  if ignoredServices.length = 0 then cfg.DiscoveryServiceIgnoreList else ignoredServices

/-- A hostname is ignore-listed: it contains an entry of the ignore list as a
substring. -/
def ignoreListed (list : List String) (hostname : String) : Prop :=
  ∃ entry ∈ list, entry.data <:+: hostname.data

/-- The configuration `cfgRewrites` with the ignore list `["internal"]`. -/
def cfgIgnore : Config := { cfgRewrites with DiscoveryServiceIgnoreList := ["internal"] }

/-- The service `internal-billing.svc` with one HTTP port, 80. -/
def svcInternal : Service := ⟨"internal-billing.svc", "", [⟨"http", 80, ProtocolHTTP⟩], "", false⟩

/-- The state `stateOne` with `internal-billing.svc` in the catalog as well. -/
def stateInternal : State :=
  { stateOne with services := stateOne.services.Insert svcInternal }

/-! ## `discover/router_register.go` -/

def discoveryBasePath : String := "discover"

/-- The call `strings.TrimPrefix`. -/
def TrimPrefix (s pre : String) : String :=
  if hasPrefixChars s.data pre.data then String.mk (s.data.drop pre.data.length) else s

/-- The configuration `DiscoverRegisterRoutes` reads through viper: the table
`SpecRewriteURL` and the site URL. -/
structure RegisterConfig where
  SpecRewriteURL : GoMap String
  SiteURL : String

/-- A route registered on the router: its path template and its method. The handler of
the route is left out. -/
structure Route where
  path : String
  method : String
  deriving DecidableEq

/-- What `DiscoverRegisterRoutes` reads and writes: the published set `d.specs`, the
routes of the router `d.router` (a nil pointer is `none`), and the package
variable `specReplacer`, a replacer being given by the arguments it was built
from (nil is `none`). -/
structure RegisterState where
  specs : GoMap Bytes
  router : Option (List Route)
  specReplacer : Option (List String)
  deriving DecidableEq

/-- The arguments of `strings.NewReplacer` that `DiscoverRegisterRoutes` collects from the
table `SpecRewriteURL`. -/
def replacementPairs (cfg : RegisterConfig) : List String :=
  cfg.SpecRewriteURL.entries.foldl
    (fun replacements kv =>
      if kv.2 ≠ "" then replacements ++ [kv.1, kv.2]
      else replacements ++ [kv.1, cfg.SiteURL])
    []

/-- The loop of `DiscoverRegisterRoutes` over the published set, on a router that is not
nil: one GET route per entry, at the path of the entry without the base path.
The function `toSlash` is `filepath.ToSlash`. -/
def registerLoop (toSlash : String → String) : List (String × Bytes) → List Route → List Route
  | [], routes => routes
  | (path, _) :: rest, routes =>
    registerLoop toSlash rest
      (routes ++ [⟨TrimPrefix (toSlash path) discoveryBasePath, "GET"⟩])

/-- The method `Discoverer.DiscoverRegisterRoutes`. The call `d.router.Path(route)` on a
nil router is a nil pointer dereference; `specReplacer` has been set by then. -/
def DiscoverRegisterRoutes (cfg : RegisterConfig) (toSlash : String → String)
    (d : RegisterState) : Exit RegisterState :=
  match d.specReplacer with
  | some _ => ⟨d, false⟩
  | none =>
    let d := { d with specReplacer := some (replacementPairs cfg) }
    match d.specs.entries with
    | [] => ⟨d, false⟩
    | kv :: rest =>
      match d.router with
      | none => ⟨d, true⟩
      | some routes => ⟨{ d with router := some (registerLoop toSlash (kv :: rest) routes) }, false⟩

/-- The route registered for an entry of the published set. -/
def routeOf (toSlash : String → String) (kv : String × Bytes) : Route :=
  ⟨TrimPrefix (toSlash kv.1) discoveryBasePath, "GET"⟩

/-- A registration state before the first call: two published entries, an empty router,
no replacer. -/
def registerStart : RegisterState :=
  { specs := (GoMap.empty.set "discover/specs/a" [1]).set "discover/specs/b" [2]
    router := some []
    specReplacer := none }

/-- A table `SpecRewriteURL` with one pair and one entry without a target. -/
def registerCfg : RegisterConfig :=
  { SpecRewriteURL := (GoMap.empty.set "http://a.local" "https://a.example").set "http://b.local" ""
    SiteURL := "https://site.example" }

/-! ## Services with several HTTP ports -/

/-- A document whose only content is the host `host`. -/
def hostDoc (host : String) : Swagger := { doc0 with Host := host }

/-- A service `multi` with the HTTP ports 80 and 81 and a TCP port between them. -/
def svcMulti : Service :=
  ⟨"multi", "", [⟨"http", 80, ProtocolHTTP⟩, ⟨"db", 5432, ProtocolTCP⟩, ⟨"grpc", 81, ProtocolGRPC⟩],
    "", false⟩

/-- An environment in which the policy loads, the port 80 of `multi` serves the document
`hostDoc "one"` and every other location the document `hostDoc "two"`; the
serialisation of a document is the one byte 1 for the host `one` and the one
byte 2 otherwise. -/
def envMulti : Env :=
  { YAMLDoc := fun _ => some [0]
    Analyzed := fun data =>
      if data = [0] then some ⟨doc0⟩
      else if data = [1] then some ⟨hostDoc "one"⟩
      else some ⟨hostDoc "two"⟩
    LoadFromFileOrHTTPWithTimeout := fun url =>
      if url = "http://multi:80/swagger.json" then some [1] else some [2]
    MarshalJSON := fun doc => if doc.Host = "one" then some [1] else some [2] }

theorem lookupKey_eraseKey_self {V : Type} (l : List (String × V)) (k : String) :
    lookupKey (eraseKey l k) k = none := by
  induction l with
  | nil => rfl
  | cons e rest ih =>
    obtain ⟨k', v⟩ := e
    by_cases h : k' = k
    · simpa only [eraseKey, h, if_true] using ih
    · simpa only [eraseKey, lookupKey, h, if_false] using ih

theorem lookupKey_eraseKey_ne {V : Type} (l : List (String × V)) (k x : String) (hx : x ≠ k) :
    lookupKey (eraseKey l k) x = lookupKey l x := by
  induction l with
  | nil => rfl
  | cons e rest ih =>
    obtain ⟨k', v⟩ := e
    by_cases h : k' = k
    · subst h
      have h' : ¬ k' = x := fun e => hx e.symm
      rw [eraseKey, if_pos rfl, lookupKey, if_neg h']
      exact ih
    · rw [eraseKey, if_neg h]
      by_cases h2 : k' = x
      · rw [lookupKey, if_pos h2, lookupKey, if_pos h2]
      · rw [lookupKey, if_neg h2, lookupKey, if_neg h2]
        exact ih

theorem lookupKey_of_not_mem {V : Type} (l : List (String × V)) (k : String)
    (h : k ∉ l.map Prod.fst) : lookupKey l k = none := by
  induction l with
  | nil => rfl
  | cons e rest ih =>
    obtain ⟨k', v⟩ := e
    simp only [List.map_cons, List.mem_cons, not_or] at h
    have h1 : ¬ k' = k := fun e => h.1 e.symm
    simpa only [lookupKey, h1, if_false] using ih h.2

theorem GoMap.get_set_self {V : Type} (m : GoMap V) (k : String) (v : V) :
    (m.set k v).get k = some v := by
  simp [GoMap.get, GoMap.set, lookupKey]

theorem GoMap.get_set_ne {V : Type} (m : GoMap V) (k x : String) (v : V) (hx : x ≠ k) :
    (m.set k v).get x = m.get x := by
  have h : ¬ k = x := fun e => hx e.symm
  simp only [GoMap.get, GoMap.set, lookupKey, h, if_false]
  exact lookupKey_eraseKey_ne m.entries k x hx

theorem GoMap.get_delete_self {V : Type} (m : GoMap V) (k : String) :
    (m.delete k).get k = none :=
  lookupKey_eraseKey_self m.entries k

theorem GoMap.get_delete_ne {V : Type} (m : GoMap V) (k x : String) (hx : x ≠ k) :
    (m.delete k).get x = m.get x :=
  lookupKey_eraseKey_ne m.entries k x hx

theorem GoMap.get_empty {V : Type} (k : String) : (GoMap.empty : GoMap V).get k = none := rfl

/-! ## Steps A and B: private paths, operations and definitions -/

theorem ToLower_visibilityExt : ToLower visibilityExt = "x-visibility" := by decide

/-- The test `isPrivate` holds exactly for the flag `x-visibility: "private"`. -/
theorem isPrivate_iff (e : Extensions) : isPrivate e = true ↔ flaggedPrivate e := by
  unfold isPrivate flaggedPrivate Extensions.GetString
  rw [ToLower_visibilityExt]
  cases h : getOpt e "x-visibility" with
  | none => simp
  | some v => cases v <;> simp

theorem clearIfPrivate_eq (op : Option Operation) : clearIfPrivate op = slotAfter op := by
  cases op with
  | none => rfl
  | some o =>
    by_cases h : flaggedPrivate o.Extensions
    · simp [clearIfPrivate, slotAfter, h, (isPrivate_iff _).mpr h]
    · have h' : isPrivate o.Extensions = false := by
        cases hp : isPrivate o.Extensions with
        | false => rfl
        | true => exact absurd ((isPrivate_iff _).mp hp) h
      simp [clearIfPrivate, slotAfter, h, h']

/-- What the loop of `removePrivateAPIs` leaves under each key. -/
theorem foldl_removePrivateAPIsStep (l : List (String × PathItem))
    (hl : (l.map Prod.fst).Nodup) (m : GoMap PathItem) (k : String) :
    (l.foldl removePrivateAPIsStep m).get k =
      match lookupKey l k with
      | some v => if isPrivate v.Extensions then none else some (clearPrivateMethods v)
      | none => m.get k := by
  induction l generalizing m with
  | nil => rfl
  | cons e rest ih =>
    obtain ⟨k0, v0⟩ := e
    have hnd := List.nodup_cons.mp hl
    rw [List.foldl_cons, ih hnd.2]
    by_cases hk : k0 = k
    · subst hk
      have hnone : lookupKey rest k0 = none := lookupKey_of_not_mem rest k0 hnd.1
      simp only [hnone, lookupKey, if_true, removePrivateAPIsStep]
      by_cases hp : isPrivate v0.Extensions
      · simp [hp, GoMap.get_delete_self]
      · simp [hp, GoMap.get_set_self]
    · simp only [lookupKey, hk, if_false]
      cases hr : lookupKey rest k with
      | some v => rfl
      | none =>
        have hne : k ≠ k0 := fun e => hk e.symm
        simp only [removePrivateAPIsStep]
        by_cases hp : isPrivate v0.Extensions
        · simp [hp, GoMap.get_delete_ne _ _ _ hne]
        · simp [hp, GoMap.get_set_ne _ _ _ _ hne]

/-- What the loop of `removePrivateDefinitions` leaves under each key. -/
theorem foldl_removePrivateDefinitionsStep (l : List (String × Schema))
    (hl : (l.map Prod.fst).Nodup) (m : GoMap Schema) (k : String) :
    (l.foldl removePrivateDefinitionsStep m).get k =
      match lookupKey l k with
      | some v => if isPrivate v.Extensions then none else m.get k
      | none => m.get k := by
  induction l generalizing m with
  | nil => rfl
  | cons e rest ih =>
    obtain ⟨k0, v0⟩ := e
    have hnd := List.nodup_cons.mp hl
    rw [List.foldl_cons, ih hnd.2]
    by_cases hk : k0 = k
    · subst hk
      have hnone : lookupKey rest k0 = none := lookupKey_of_not_mem rest k0 hnd.1
      simp only [hnone, lookupKey, if_true, removePrivateDefinitionsStep]
      by_cases hp : isPrivate v0.Extensions
      · simp [hp, GoMap.get_delete_self]
      · simp [hp]
    · have hne : k ≠ k0 := fun e => hk e.symm
      have hstep : (removePrivateDefinitionsStep m (k0, v0)).get k = m.get k := by
        simp only [removePrivateDefinitionsStep]
        by_cases hp : isPrivate v0.Extensions
        · simp [hp, GoMap.get_delete_ne _ _ _ hne]
        · simp [hp]
      simp only [lookupKey, hk, if_false, hstep]

/-- What `removePrivateAPIs` followed by `removePrivateDefinitions` leaves of a
document: the steps A and B of the pipeline, key by key. -/
theorem removePrivate_get (svcSpec : Swagger) :
    (match svcSpec.Paths, (removePrivateDefinitions (removePrivateAPIs svcSpec)).Paths with
      | some pathsRef, some outPaths =>
        outPaths.Extensions = pathsRef.Extensions ∧
        ∀ k, outPaths.Paths.get k =
          match pathsRef.Paths.get k with
          | some v => if isPrivate v.Extensions then none else some (clearPrivateMethods v)
          | none => none
      | none, none => True
      | _, _ => False) ∧
    (∀ k, (removePrivateDefinitions (removePrivateAPIs svcSpec)).Definitions.get k =
      match svcSpec.Definitions.get k with
      | some v => if isPrivate v.Extensions then none else some v
      | none => none) := by
  constructor
  · cases hp : svcSpec.Paths with
    | none => simp [removePrivateAPIs, removePrivateDefinitions, hp]
    | some pathsRef =>
      simp only [removePrivateAPIs, removePrivateDefinitions, hp]
      refine ⟨trivial, fun k => ?_⟩
      rw [foldl_removePrivateAPIsStep _ pathsRef.Paths.nodup]
      simp only [GoMap.get]
      cases lookupKey pathsRef.Paths.entries k <;> rfl
  · intro k
    have hd : (removePrivateAPIs svcSpec).Definitions = svcSpec.Definitions := by
      unfold removePrivateAPIs
      cases svcSpec.Paths <;> rfl
    simp only [removePrivateDefinitions, hd]
    rw [foldl_removePrivateDefinitionsStep _ svcSpec.Definitions.nodup]
    simp only [GoMap.get]
    cases lookupKey svcSpec.Definitions.entries k <;> rfl

/-- An operation that `clearIfPrivate` leaves in a slot is not flagged private. -/
theorem clearIfPrivate_not_flagged (op : Option Operation) (o : Operation)
    (h : clearIfPrivate op = some o) : ¬ flaggedPrivate o.Extensions := by
  rw [clearIfPrivate_eq] at h
  cases op with
  | none => simp [slotAfter] at h
  | some o' =>
    by_cases hf : flaggedPrivate o'.Extensions
    · simp [slotAfter, hf] at h
    · simp only [slotAfter, hf, if_false, Option.some.injEq] at h
      rw [← h]; exact hf

/-- What steps A and B achieve: after them no remaining path item is flagged private,
no operation in the GET, PUT, PATCH, POST or DELETE slot of a remaining path
item is, and no remaining top-level definition is. (The HEAD and OPTIONS slots
are not covered.) -/
theorem removePrivate_sound (svcSpec : Swagger) :
    (∀ outPaths k v,
        (removePrivateDefinitions (removePrivateAPIs svcSpec)).Paths = some outPaths →
        outPaths.Paths.get k = some v →
        ¬ flaggedPrivate v.Extensions ∧
          ∀ o, (v.Get = some o ∨ v.Put = some o ∨ v.Patch = some o ∨ v.Post = some o ∨
              v.Delete = some o) → ¬ flaggedPrivate o.Extensions) ∧
      (∀ k v, (removePrivateDefinitions (removePrivateAPIs svcSpec)).Definitions.get k = some v →
        ¬ flaggedPrivate v.Extensions) := by
  have h := removePrivate_get svcSpec
  constructor
  · intro outPaths k v hout hget
    have h1 := h.1
    rw [hout] at h1
    cases hp : svcSpec.Paths with
    | none => simp [hp] at h1
    | some pathsRef =>
      simp only [hp] at h1
      have hk := h1.2 k
      rw [hget] at hk
      cases hv : pathsRef.Paths.get k with
      | none => simp [hv] at hk
      | some v0 =>
        simp only [hv] at hk
        by_cases hpriv : isPrivate v0.Extensions = true
        · simp [hpriv] at hk
        · simp [hpriv] at hk
          subst hk
          refine ⟨fun hf => hpriv ((isPrivate_iff _).mpr hf), ?_⟩
          intro o ho
          simp only [clearPrivateMethods] at ho
          rcases ho with ho | ho | ho | ho | ho <;> exact clearIfPrivate_not_flagged _ _ ho
  · intro k v hget
    rw [h.2 k] at hget
    cases hv : svcSpec.Definitions.get k with
    | none => simp [hv] at hget
    | some v0 =>
      simp only [hv] at hget
      by_cases hpriv : isPrivate v0.Extensions = true
      · simp [hpriv] at hget
      · simp [hpriv] at hget
        subst hget
        exact fun hf => hpriv ((isPrivate_iff _).mpr hf)

/-- C1 (failing input): in the document `headDoc` the HEAD operation of `/pets` is
flagged `x-visibility: "private"`, and after `removePrivateAPIs` and
`removePrivateDefinitions` the path `/pets` still holds that operation: the
loop tests GET, PUT, PATCH, POST and DELETE, not HEAD (nor OPTIONS). -/
theorem head_private_survives :
    (((removePrivateDefinitions (removePrivateAPIs headDoc)).Paths.bind
        (fun p => p.Paths.get "/pets")).bind PathItem.Head) = some privateOp ∧
      flaggedPrivate privateOp.Extensions := by
  decide

/-- C2: steps A and B remove only what is flagged. A path not flagged private stays
under its key; in it each of GET, PUT, PATCH, POST and DELETE is cleared exactly
when that operation is flagged private, and HEAD, OPTIONS, the parameters, the
reference and the extensions of the item are as before. A path flagged private
is gone and no key is added. A definition is dropped exactly when it is flagged
private and is otherwise as before. Nothing else of the document changes. -/
theorem removePrivate_only_flagged (svcSpec : Swagger) :
    (match svcSpec.Paths, (removePrivateDefinitions (removePrivateAPIs svcSpec)).Paths with
      | some pathsRef, some outPaths =>
        outPaths.Extensions = pathsRef.Extensions ∧
        ∀ k, outPaths.Paths.get k =
          match pathsRef.Paths.get k with
          | some v =>
            if flaggedPrivate v.Extensions then none
            else some { v with
              Get := slotAfter v.Get, Put := slotAfter v.Put, Patch := slotAfter v.Patch,
              Post := slotAfter v.Post, Delete := slotAfter v.Delete }
          | none => none
      | none, none => True
      | _, _ => False) ∧
    (∀ k, (removePrivateDefinitions (removePrivateAPIs svcSpec)).Definitions.get k =
      match svcSpec.Definitions.get k with
      | some v => if flaggedPrivate v.Extensions then none else some v
      | none => none) ∧
    removePrivateDefinitions (removePrivateAPIs svcSpec) =
      { svcSpec with
        Paths := (removePrivateDefinitions (removePrivateAPIs svcSpec)).Paths,
        Definitions := (removePrivateDefinitions (removePrivateAPIs svcSpec)).Definitions } := by
  have hflag : ∀ e : Extensions, (isPrivate e = true) = flaggedPrivate e :=
    fun e => propext (isPrivate_iff e)
  have h := removePrivate_get svcSpec
  refine ⟨?_, ?_, ?_⟩
  · have h1 := h.1
    cases hp : svcSpec.Paths with
    | none =>
      cases ho : (removePrivateDefinitions (removePrivateAPIs svcSpec)).Paths with
      | none => trivial
      | some o => simp [hp, ho] at h1
    | some pathsRef =>
      cases ho : (removePrivateDefinitions (removePrivateAPIs svcSpec)).Paths with
      | none => simp [hp, ho] at h1
      | some o =>
        simp only [hp, ho] at h1
        refine ⟨h1.1, fun k => ?_⟩
        rw [h1.2 k]
        cases pathsRef.Paths.get k with
        | none => rfl
        | some v =>
          simp only [hflag, clearPrivateMethods, clearIfPrivate_eq]
  · intro k
    rw [h.2 k]
    cases svcSpec.Definitions.get k with
    | none => rfl
    | some v => simp only [hflag]
  · unfold removePrivateDefinitions removePrivateAPIs
    cases svcSpec.Paths <;> rfl

/-- Steps A and B on `mixedDoc`: `/a`, flagged `Private` with a capital, stays with its
GET cleared and its PUT kept; `/b` is gone; `Kept` stays and `Secret` is gone. -/
theorem mixedDoc_filtered :
    ((removePrivateDefinitions (removePrivateAPIs mixedDoc)).Paths.bind
        (fun p => p.Paths.get "/a")) =
        some { item0 with Extensions := ext1 "x-visibility" (Iface.str "Private"), Put := some op0 } ∧
      ((removePrivateDefinitions (removePrivateAPIs mixedDoc)).Paths.bind
        (fun p => p.Paths.get "/b")) = none ∧
      (removePrivateDefinitions (removePrivateAPIs mixedDoc)).Definitions.get "Kept" =
        some ⟨none, "", "", [], []⟩ ∧
      (removePrivateDefinitions (removePrivateAPIs mixedDoc)).Definitions.get "Secret" = none := by
  decide

/-! ## Step C: grouping -/

theorem ToLower_extKeyGroupBy : ToLower extKeyGroupBy = "x-groupby" := by decide

/-- What the tag loop of `applyGrouping` leaves under `x-groupby`. -/
theorem foldl_tags_groupby (groupings : GoMap String) (tags : List Tag) (e : GoMap Iface) :
    (tags.foldl
        (fun e tag =>
          match groupings.get tag.Name with
          | some customgroup => Extensions.Add e extKeyGroupBy (Iface.str customgroup)
          | none => e)
        e).get "x-groupby" =
      match (tagOverrides groupings tags).getLast? with
      | some g => some (Iface.str g)
      | none => e.get "x-groupby" := by
  induction tags using List.reverseRecOn with
  | nil => rfl
  | append_singleton ts t ih =>
    rw [List.foldl_append, List.foldl_cons, List.foldl_nil]
    unfold tagOverrides at ih ⊢
    rw [List.filterMap_append]
    cases hg : groupings.get t.Name with
    | none =>
      simp only [List.filterMap_cons, hg, List.filterMap_nil, List.append_nil]
      exact ih
    | some g =>
      simp only [List.filterMap_cons, hg, List.filterMap_nil, List.getLast?_concat]
      rw [Extensions.Add, ToLower_extKeyGroupBy, GoMap.get_set_self]

/-- C3: after `applyGrouping` the extension `x-groupby` is the override of the last
declared tag that has one in the table; when no declared tag has one it is
`Private Cloud Services` for the component type `private-cloud`,
`Public Cloud Services` for `public-cloud` and `Platform APIs` for every other
value, for a missing `x-mcmp-component-type` and for a document without an
extension map. -/
theorem applyGrouping_groupby (groupings : GoMap String) (svcSpec : Swagger) :
    getOpt (applyGrouping groupings svcSpec).Extensions "x-groupby" =
      some (Iface.str
        (match (tagOverrides groupings svcSpec.Tags).getLast? with
          | some g => g
          | none => defaultGroup (getOpt svcSpec.Extensions "x-mcmp-component-type"))) := by
  have hkey : extKeyMCMPComponentType = "x-mcmp-component-type" := rfl
  have hget : ∀ e : Extensions,
      (match e with | none => (GoMap.empty : GoMap Iface) | some m => m).get
        "x-mcmp-component-type" = getOpt e "x-mcmp-component-type" := by
    intro e
    cases e <;> rfl
  simp only [applyGrouping, getOpt, foldl_tags_groupby, hkey, hget]
  cases (tagOverrides groupings svcSpec.Tags).getLast? with
  | some g => rfl
  | none =>
    simp only [defaultGroup, groupByPrivate, groupByPublic, groupByCore]
    split_ifs <;>
      simp only [Extensions.Add, ToLower_extKeyGroupBy, GoMap.get_set_self]

/-- Grouping on `taggedDoc`: with overrides for `billing` and `users` the last declared
tag wins; without overrides the component type `public-cloud` decides; a
document without extensions gets `Platform APIs`. -/
theorem taggedDoc_grouped :
    getOpt (applyGrouping groupings2 taggedDoc).Extensions "x-groupby" =
        some (Iface.str "Identity") ∧
      getOpt (applyGrouping GoMap.empty taggedDoc).Extensions "x-groupby" =
        some (Iface.str "Public Cloud Services") ∧
      getOpt (applyGrouping groupings2 doc0).Extensions "x-groupby" =
        some (Iface.str "Platform APIs") := by
  decide

/-! ## Step D: rewrites -/

/-- What the extension loop of `applyRewrites` leaves under each key. -/
theorem foldl_set_get (l : List (String × Iface)) (hl : (l.map Prod.fst).Nodup)
    (m : GoMap Iface) (k : String) :
    (l.foldl (fun e kv => e.set kv.1 kv.2) m).get k =
      match lookupKey l k with
      | some v => some v
      | none => m.get k := by
  induction l generalizing m with
  | nil => rfl
  | cons e rest ih =>
    obtain ⟨k0, v0⟩ := e
    have hnd := List.nodup_cons.mp hl
    rw [List.foldl_cons, ih hnd.2]
    by_cases hk : k0 = k
    · subst hk
      have hnone : lookupKey rest k0 = none := lookupKey_of_not_mem rest k0 hnd.1
      simp only [hnone, lookupKey, if_true, GoMap.get_set_self]
    · have hne : k ≠ k0 := fun e => hk e.symm
      simp only [lookupKey, hk, if_false, GoMap.get_set_ne _ _ _ _ hne]

/-- C4: after `applyRewrites` the security definitions, the security requirements and
the schemes of the service document are each the policy's value when that value
is not empty and the document's own value otherwise, each decided by the
policy's value of that field alone. This is the state of the document however
the call ends; it ends in a panic exactly when the policy has an extension to
write and the extension map of the document is nil. -/
theorem applyRewrites_fields (rewrites svcSpec : Swagger) :
    (applyRewrites rewrites svcSpec).state.SecurityDefinitions =
        (if rewrites.SecurityDefinitions.len > 0 then rewrites.SecurityDefinitions
          else svcSpec.SecurityDefinitions) ∧
      (applyRewrites rewrites svcSpec).state.Security =
        (if rewrites.Security.length > 0 then rewrites.Security else svcSpec.Security) ∧
      (applyRewrites rewrites svcSpec).state.Schemes =
        (if rewrites.Schemes.length > 0 then rewrites.Schemes else svcSpec.Schemes) ∧
      ((applyRewrites rewrites svcSpec).panicked = true ↔
        (svcSpec.Extensions = none ∧ entriesOpt rewrites.Extensions ≠ [])) := by
  by_cases h1 : rewrites.SecurityDefinitions.len > 0 <;>
  by_cases h2 : rewrites.Security.length > 0 <;>
  by_cases h3 : rewrites.Schemes.length > 0 <;>
  cases he : entriesOpt rewrites.Extensions <;>
  cases hx : svcSpec.Extensions <;>
  simp [applyRewrites, h1, h2, h3, he, hx]

/-- The extension map after `applyGrouping` is never nil. -/
theorem applyGrouping_extensions_isSome (groupings : GoMap String) (svcSpec : Swagger) :
    ∃ exts, (applyGrouping groupings svcSpec).Extensions = some exts :=
  ⟨_, rfl⟩

/-- On a document whose extension map is not nil, `applyRewrites` returns and leaves
under each key the policy's value if the policy has the key, the document's
otherwise. -/
theorem applyRewrites_extensions (rewrites svcSpec : Swagger) (exts : GoMap Iface)
    (hx : svcSpec.Extensions = some exts) (k : String) :
    (applyRewrites rewrites svcSpec).panicked = false ∧
      getOpt (applyRewrites rewrites svcSpec).state.Extensions k =
        match getOpt rewrites.Extensions k with
        | some v => some v
        | none => exts.get k := by
  have hfold : ∀ m : GoMap Iface, rewrites.Extensions = some m →
      (m.entries.foldl (fun e kv => e.set kv.1 kv.2) exts).get k =
        match getOpt rewrites.Extensions k with
        | some v => some v
        | none => exts.get k := by
    intro m hm
    rw [foldl_set_get _ m.nodup, hm]
    rfl
  cases hr : rewrites.Extensions with
  | none =>
    by_cases h1 : rewrites.SecurityDefinitions.len > 0 <;>
    by_cases h2 : rewrites.Security.length > 0 <;>
    by_cases h3 : rewrites.Schemes.length > 0 <;>
    simp [applyRewrites, h1, h2, h3, hr, hx, entriesOpt, getOpt]
  | some m =>
    have hf := hfold m hr
    rw [hr] at hf
    cases he : m.entries with
    | nil =>
      have hnone : m.get k = none := by simp [GoMap.get, he, lookupKey]
      by_cases h1 : rewrites.SecurityDefinitions.len > 0 <;>
      by_cases h2 : rewrites.Security.length > 0 <;>
      by_cases h3 : rewrites.Schemes.length > 0 <;>
      simp [applyRewrites, h1, h2, h3, hr, hx, entriesOpt, getOpt, he, hnone]
    | cons kv rest =>
      rw [he] at hf
      by_cases h1 : rewrites.SecurityDefinitions.len > 0 <;>
      by_cases h2 : rewrites.Security.length > 0 <;>
      by_cases h3 : rewrites.Schemes.length > 0 <;>
      simp only [applyRewrites, h1, h2, h3, hr, hx, entriesOpt, getOpt, he, if_true,
        if_false, true_and] <;>
      exact hf

/-- The pipeline of `processSpec` never ends in a panic. -/
theorem processSpecDoc_not_panicked (cfg : Config) (rewritesSpec : Option Swagger)
    (svcSpec : Swagger) : (processSpecDoc cfg rewritesSpec svcSpec).panicked = false := by
  cases rewritesSpec with
  | none => rfl
  | some rewrites =>
    exact (applyRewrites_extensions rewrites _ _ rfl "").1

/-- What `processSpec` returns for a document that is not nil. -/
theorem processSpec_some (cfg : Config) (env : Env) (hostname : String)
    (rewritesSpec : Option Swagger) (svcSpec : Swagger) :
    processSpec cfg env hostname rewritesSpec (some svcSpec) =
      match env.MarshalJSON (processSpecDoc cfg rewritesSpec svcSpec).state with
      | some outdata => Outcome.ok (publishPath cfg hostname, outdata)
      | none => Outcome.err "unable to marshal final spec" := by
  simp only [processSpec, processSpecDoc_not_panicked]
  cases env.MarshalJSON (processSpecDoc cfg rewritesSpec svcSpec).state <;> rfl

/-- C5: after `processSpec` with a policy, the extension map of the service document
holds under every key of the policy's extensions the policy's value, the key
written as the policy writes it, whatever the document or the grouping step had
put there (`x-groupby` included); under every other key it holds what it held
after grouping, so that no lower-cased copy of a policy key appears. The call
does not panic and returns the serialisation of that document. -/
theorem processSpec_merges_policy_extensions (cfg : Config) (env : Env) (hostname : String)
    (rewrites svcSpec : Swagger) :
    (processSpecDoc cfg (some rewrites) svcSpec).panicked = false ∧
      (∀ k, getOpt (processSpecDoc cfg (some rewrites) svcSpec).state.Extensions k =
        match getOpt rewrites.Extensions k with
        | some v => some v
        | none =>
          getOpt (applyGrouping cfg.SpecGroupings
            (removePrivateDefinitions (removePrivateAPIs svcSpec))).Extensions k) ∧
      processSpec cfg env hostname (some rewrites) (some svcSpec) =
        match env.MarshalJSON (processSpecDoc cfg (some rewrites) svcSpec).state with
        | some outdata => Outcome.ok (publishPath cfg hostname, outdata)
        | none => Outcome.err "unable to marshal final spec" := by
  refine ⟨processSpecDoc_not_panicked _ _ _, fun k => ?_, processSpec_some _ _ _ _ _⟩
  exact (applyRewrites_extensions rewrites _ _ rfl k).2

/-- The policy extension `X-Custom` reaches the document as `X-Custom`; no `x-custom`
entry appears, and `x-groupby` is the one grouping wrote. -/
theorem customPolicy_keeps_case :
    getOpt (processSpecDoc cfg0 (some customPolicy) doc0).state.Extensions "X-Custom" =
        some (Iface.str "on") ∧
      getOpt (processSpecDoc cfg0 (some customPolicy) doc0).state.Extensions "x-custom" = none ∧
      getOpt (processSpecDoc cfg0 (some customPolicy) doc0).state.Extensions "x-groupby" =
        some (Iface.str "Platform APIs") := by
  decide

/-! ## The discovery cycle -/

/-- The locations the port loop hands to `loadSpec` extend the trace by a prefix of the
HTTP locations of the service, by all of them when the loop does not panic. -/
theorem portLoop_attempts (cfg : Config) (env : Env) (rewritesDoc : Option Document)
    (hostName : String) (ports : List Port) :
    ∀ st : LoopState, ∃ extra,
      (portLoop cfg env rewritesDoc hostName ports st).attempts = st.attempts ++ extra ∧
      extra <+: httpLocations hostName ports ∧
      ((portLoop cfg env rewritesDoc hostName ports st).panicked = false →
        extra = httpLocations hostName ports) := by
  induction ports with
  | nil => intro st; exact ⟨[], by simp [portLoop, httpLocations]⟩
  | cons p rest ih =>
    intro st
    by_cases hp : p.Protocol.IsHTTP = false
    · obtain ⟨extra, h1, h2, h3⟩ := ih st
      have hloc : httpLocations hostName (p :: rest) = httpLocations hostName rest := by
        simp [httpLocations, hp]
      rw [portLoop, if_pos hp, hloc]
      exact ⟨extra, h1, h2, h3⟩
    · have hp' : p.Protocol.IsHTTP = true := by simpa using hp
      have hloc : httpLocations hostName (p :: rest) =
          location hostName p.Port :: httpLocations hostName rest := by
        simp [httpLocations, hp']
      -- the continuation of the loop from any state that has recorded the attempt
      have hcont : ∀ st1 : LoopState,
          st1.attempts = st.attempts ++ [location hostName p.Port] →
          ∃ extra,
            (portLoop cfg env rewritesDoc hostName rest st1).attempts = st.attempts ++ extra ∧
            extra <+: httpLocations hostName (p :: rest) ∧
            ((portLoop cfg env rewritesDoc hostName rest st1).panicked = false →
              extra = httpLocations hostName (p :: rest)) := by
        intro st1 hst1
        obtain ⟨extra, h1, h2, h3⟩ := ih st1
        refine ⟨location hostName p.Port :: extra, ?_, ?_, ?_⟩
        · rw [h1, hst1]; simp
        · rw [hloc]; exact (List.prefix_cons_inj _).mpr h2
        · intro hpan; rw [hloc, h3 hpan]
      -- the loop stops in a panic right after the attempt
      have hstop : ∀ st1 : LoopState,
          st1.attempts = st.attempts ++ [location hostName p.Port] → st1.panicked = true →
          ∃ extra,
            st1.attempts = st.attempts ++ extra ∧
            extra <+: httpLocations hostName (p :: rest) ∧
            (st1.panicked = false → extra = httpLocations hostName (p :: rest)) := by
        intro st1 hst1 hpan
        refine ⟨[location hostName p.Port], hst1, ?_, ?_⟩
        · rw [hloc]; simp
        · intro h; rw [hpan] at h; cases h
      rw [portLoop, if_neg hp]
      simp only []
      split
      · exact hcont _ rfl
      · split
        · exact hstop _ rfl rfl
        · split
          · exact hstop _ rfl rfl
          · exact hcont _ rfl
          · exact hcont _ rfl

/-- The port loop does not touch the package variable `ignoredServices`. -/
theorem portLoop_ignoredServices (cfg : Config) (env : Env) (rewritesDoc : Option Document)
    (hostName : String) (ports : List Port) :
    ∀ st : LoopState,
      (portLoop cfg env rewritesDoc hostName ports st).ignoredServices = st.ignoredServices := by
  induction ports with
  | nil => intro st; rfl
  | cons p rest ih =>
    intro st
    by_cases hp : p.Protocol.IsHTTP = false
    · rw [portLoop, if_pos hp]; exact ih st
    · rw [portLoop, if_neg hp]
      simp only []
      split
      · rw [ih]
      · split
        · rfl
        · split
          · rfl
          · rw [ih]
          · rw [ih]

/-- With a nil `rewritesDoc` the port loop never adds to `newSpecs`: the call
`rewritesDoc.Spec()` panics before `processSpec` is entered. -/
theorem portLoop_nil_newSpecs (cfg : Config) (env : Env) (hostName : String)
    (ports : List Port) :
    ∀ st : LoopState, (portLoop cfg env none hostName ports st).newSpecs = st.newSpecs := by
  induction ports with
  | nil => intro st; rfl
  | cons p rest ih =>
    intro st
    by_cases hp : p.Protocol.IsHTTP = false
    · rw [portLoop, if_pos hp]; exact ih st
    · rw [portLoop, if_neg hp]
      simp only [Document.Spec]
      split
      · rw [ih]
      · rfl

/-- With a loaded policy document the port loop does not panic. -/
theorem portLoop_some_panicked (cfg : Config) (env : Env) (doc : Document) (hostName : String)
    (ports : List Port) :
    ∀ st : LoopState,
      (portLoop cfg env (some doc) hostName ports st).panicked = st.panicked := by
  induction ports with
  | nil => intro st; rfl
  | cons p rest ih =>
    intro st
    by_cases hp : p.Protocol.IsHTTP = false
    · rw [portLoop, if_pos hp]; exact ih st
    · rw [portLoop, if_neg hp]
      simp only [Document.Spec]
      split
      · rw [ih]
      · rename_i svcSpec _
        rw [processSpec_some]
        cases env.MarshalJSON (processSpecDoc cfg (some doc.spec) svcSpec).state with
        | none => simp only []; rw [ih]
        | some outdata => simp only []; rw [ih]

/-- The port loop only ever extends the trace of attempts. -/
theorem portLoop_attempts_subset (cfg : Config) (env : Env) (rewritesDoc : Option Document)
    (hostName : String) (ports : List Port) (st : LoopState) (loc : String)
    (h : loc ∈ st.attempts) : loc ∈ (portLoop cfg env rewritesDoc hostName ports st).attempts := by
  obtain ⟨extra, h1, _⟩ := portLoop_attempts cfg env rewritesDoc hostName ports st
  rw [h1]
  exact List.mem_append_left _ h

/-- When every load the port loop attempts fails, the loop neither adds to `newSpecs`
nor panics. -/
theorem portLoop_all_fail (cfg : Config) (env : Env) (rewritesDoc : Option Document)
    (hostName : String) (ports : List Port) :
    ∀ st : LoopState,
      (∀ loc ∈ (portLoop cfg env rewritesDoc hostName ports st).attempts,
        ∀ svcSpec, loadSpec env loc ≠ Except.ok svcSpec) →
      (portLoop cfg env rewritesDoc hostName ports st).newSpecs = st.newSpecs ∧
        (portLoop cfg env rewritesDoc hostName ports st).panicked = st.panicked := by
  induction ports with
  | nil => intro st _; exact ⟨rfl, rfl⟩
  | cons p rest ih =>
    intro st
    by_cases hp : p.Protocol.IsHTTP = false
    · rw [portLoop, if_pos hp]; exact ih st
    · rw [portLoop, if_neg hp]
      simp only []
      cases hl : loadSpec env (location hostName p.Port) with
      | error e =>
        simp only []
        intro hfail
        exact ih _ hfail
      | ok svcSpec =>
        intro hfail
        exfalso
        refine hfail (location hostName p.Port) ?_ svcSpec hl
        simp only []
        split
        · simp
        · split
          · simp
          · exact portLoop_attempts_subset _ _ _ _ _ _ _ (by simp)
          · exact portLoop_attempts_subset _ _ _ _ _ _ _ (by simp)

/-- Once `inIgnoreList` has run, the package variable gives the same answers, and keeps
its value, in every later call. -/
theorem inIgnoreList_cached (cfg : Config) (ignoredServices : List String) (n x : String) :
    inIgnoreList cfg (inIgnoreList cfg ignoredServices n).2 x =
      inIgnoreList cfg ignoredServices x := by
  unfold inIgnoreList
  by_cases h : ignoredServices.length = 0
  · by_cases h2 : cfg.DiscoveryServiceIgnoreList.length = 0
    · simp [h, h2]
    · simp [h, h2]
  · simp [h]

theorem eligible_cached (cfg : Config) (ignoredServices : List String) (n : String) :
    eligible cfg (inIgnoreList cfg ignoredServices n).2 = eligible cfg ignoredServices := by
  funext s
  simp only [eligible, inIgnoreList_cached]

theorem expectedAttempts_cached (cfg : Config) (ignoredServices : List String) (n : String)
    (services : List Service) :
    expectedAttempts cfg (inIgnoreList cfg ignoredServices n).2 services =
      expectedAttempts cfg ignoredServices services := by
  simp only [expectedAttempts, eligible_cached]

theorem expectedAttempts_cons (cfg : Config) (ignoredServices : List String) (s : Service)
    (rest : List Service) :
    expectedAttempts cfg ignoredServices (s :: rest) =
      (if eligible cfg ignoredServices s then httpLocations s.Hostname s.Ports else []) ++
        expectedAttempts cfg ignoredServices rest := by
  by_cases h : eligible cfg ignoredServices s = true
  · simp [expectedAttempts, List.filter_cons, h]
  · simp [expectedAttempts, List.filter_cons, h]

/-- The locations the service loop hands to `loadSpec` extend the trace by a prefix of
the expected locations, by all of them when the loop does not panic. -/
theorem serviceLoop_attempts (cfg : Config) (env : Env) (rewritesDoc : Option Document)
    (services : List Service) :
    ∀ st : LoopState, ∃ extra,
      (serviceLoop cfg env rewritesDoc services st).attempts = st.attempts ++ extra ∧
      extra <+: expectedAttempts cfg st.ignoredServices services ∧
      ((serviceLoop cfg env rewritesDoc services st).panicked = false →
        extra = expectedAttempts cfg st.ignoredServices services) := by
  induction services with
  | nil => intro st; exact ⟨[], by simp [serviceLoop, expectedAttempts]⟩
  | cons s rest ih =>
    intro st
    rw [expectedAttempts_cons]
    by_cases hh : s.Hostname = ""
    · have he : eligible cfg st.ignoredServices s = false := by simp [eligible, hh]
      rw [serviceLoop, if_pos hh, he]
      simpa using ih st
    · rw [serviceLoop, if_neg hh]
      simp only []
      by_cases hi : (inIgnoreList cfg st.ignoredServices s.Hostname).1 = true
      · have he : eligible cfg st.ignoredServices s = false := by simp [eligible, hi]
        rw [if_pos hi, he]
        obtain ⟨extra, h1, h2, h3⟩ :=
          ih { st with ignoredServices := (inIgnoreList cfg st.ignoredServices s.Hostname).2 }
        simp only [expectedAttempts_cached] at h2 h3
        exact ⟨extra, h1, by simpa using h2, by simpa using h3⟩
      · have he : eligible cfg st.ignoredServices s = true := by simp [eligible, hh, hi]
        rw [if_neg hi, he]
        simp only [if_true]
        obtain ⟨e1, p1, p2, p3⟩ := portLoop_attempts cfg env rewritesDoc s.Hostname s.Ports
          { st with ignoredServices := (inIgnoreList cfg st.ignoredServices s.Hostname).2 }
        by_cases hpan : (portLoop cfg env rewritesDoc s.Hostname s.Ports
            { st with ignoredServices :=
              (inIgnoreList cfg st.ignoredServices s.Hostname).2 }).panicked = true
        · rw [if_pos hpan]
          refine ⟨e1, p1, ?_, ?_⟩
          · exact p2.trans (List.prefix_append _ _)
          · intro hf; rw [hpan] at hf; cases hf
        · rw [if_neg hpan]
          have hpan' := p3 (by simpa using hpan)
          obtain ⟨e2, q1, q2, q3⟩ := ih (portLoop cfg env rewritesDoc s.Hostname s.Ports
            { st with ignoredServices := (inIgnoreList cfg st.ignoredServices s.Hostname).2 })
          rw [portLoop_ignoredServices] at q2 q3
          simp only [expectedAttempts_cached] at q2 q3
          refine ⟨e1 ++ e2, ?_, ?_, ?_⟩
          · rw [q1, p1, List.append_assoc]
          · rw [hpan']
            exact (List.prefix_append_right_inj _).mpr q2
          · intro hf
            rw [hpan', q3 hf]

/-- The service loop only ever extends the trace of attempts. -/
theorem serviceLoop_attempts_subset (cfg : Config) (env : Env) (rewritesDoc : Option Document)
    (services : List Service) (st : LoopState) (loc : String) (h : loc ∈ st.attempts) :
    loc ∈ (serviceLoop cfg env rewritesDoc services st).attempts := by
  obtain ⟨extra, h1, _⟩ := serviceLoop_attempts cfg env rewritesDoc services st
  rw [h1]
  exact List.mem_append_left _ h

/-- With a nil `rewritesDoc` the service loop never adds to `newSpecs`. -/
theorem serviceLoop_nil_newSpecs (cfg : Config) (env : Env) (services : List Service) :
    ∀ st : LoopState, (serviceLoop cfg env none services st).newSpecs = st.newSpecs := by
  induction services with
  | nil => intro st; rfl
  | cons s rest ih =>
    intro st
    rw [serviceLoop]
    split
    · exact ih st
    · simp only []
      split
      · rw [ih]
      · split
        · rw [portLoop_nil_newSpecs]
        · rw [ih, portLoop_nil_newSpecs]

/-- With a loaded policy document the service loop does not panic. -/
theorem serviceLoop_some_panicked (cfg : Config) (env : Env) (doc : Document)
    (services : List Service) :
    ∀ st : LoopState,
      (serviceLoop cfg env (some doc) services st).panicked = st.panicked := by
  induction services with
  | nil => intro st; rfl
  | cons s rest ih =>
    intro st
    rw [serviceLoop]
    split
    · exact ih st
    · simp only []
      split
      · rw [ih]
      · split
        · rw [portLoop_some_panicked]
        · rw [ih, portLoop_some_panicked]

/-- When every load the service loop attempts fails, the loop neither adds to
`newSpecs` nor panics. -/
theorem serviceLoop_all_fail (cfg : Config) (env : Env) (rewritesDoc : Option Document)
    (services : List Service) :
    ∀ st : LoopState,
      (∀ loc ∈ (serviceLoop cfg env rewritesDoc services st).attempts,
        ∀ svcSpec, loadSpec env loc ≠ Except.ok svcSpec) →
      (serviceLoop cfg env rewritesDoc services st).newSpecs = st.newSpecs ∧
        (serviceLoop cfg env rewritesDoc services st).panicked = st.panicked := by
  induction services with
  | nil => intro st _; exact ⟨rfl, rfl⟩
  | cons s rest ih =>
    intro st
    rw [serviceLoop]
    split
    · exact ih st
    · simp only []
      split
      · intro hfail
        exact ih _ hfail
      · split
        · intro hfail
          exact portLoop_all_fail _ _ _ _ _ _ hfail
        · intro hfail
          have hport := portLoop_all_fail cfg env rewritesDoc s.Hostname s.Ports
            { st with ignoredServices := (inIgnoreList cfg st.ignoredServices s.Hostname).2 }
            (fun loc hloc => hfail loc (serviceLoop_attempts_subset _ _ _ _ _ _ hloc))
          have hrest := ih _ hfail
          exact ⟨hrest.1.trans hport.1, hrest.2.trans hport.2⟩

/-- A map without entries holds nothing under any key. -/
theorem GoMap.get_of_len_zero {V : Type} (m : GoMap V) (h : ¬ m.len > 0) (k : String) :
    m.get k = none := by
  have h0 : m.entries = [] := by
    cases he : m.entries with
    | nil => rfl
    | cons e rest => simp [GoMap.len, he] at h
  simp [GoMap.get, h0, lookupKey]

/-- When the loop of `fetchAPISpecs` ends in a panic, `newSpecs` is still empty. -/
theorem fetchAPISpecs_panicked_newSpecs (cfg : Config) (env : Env) (services : List Service)
    (ignoredServices : List String)
    (h : (fetchAPISpecs cfg env services ignoredServices).loop.panicked = true) :
    (fetchAPISpecs cfg env services ignoredServices).loop.newSpecs = GoMap.empty := by
  unfold fetchAPISpecs at h ⊢
  cases hl : loadRewritesDoc cfg env with
  | none => simp only [hl]
  | some rewritesDoc =>
    cases rewritesDoc with
    | none =>
      simp only [hl]
      split <;> exact serviceLoop_nil_newSpecs _ _ _ _
    | some doc =>
      exfalso
      simp only [hl] at h
      split at h <;> simp [serviceLoop_some_panicked] at h

/-- C6: after `discover()` the published set is the candidate set `newSpecs` of the
cycle when that set is not empty, so that nothing of the previous set remains
but what the candidate set holds, and is the previous published set when the
candidate set is empty; it is the previous set in particular when every load
the cycle attempted failed, and the cycle then returns normally. The catalog
is as before. -/
theorem discover_replaces_or_keeps (cfg : Config) (env : Env) (d : State) :
    (discover cfg env d).state.specs =
        (if (fetchAPISpecs cfg env d.services.List d.ignoredServices).loop.newSpecs.len > 0
          then (fetchAPISpecs cfg env d.services.List d.ignoredServices).loop.newSpecs
          else d.specs) ∧
      (discover cfg env d).state.services = d.services ∧
      ((∀ loc ∈ (fetchAPISpecs cfg env d.services.List d.ignoredServices).loop.attempts,
          ∀ svcSpec, loadSpec env loc ≠ Except.ok svcSpec) →
        (discover cfg env d).state.specs = d.specs ∧ (discover cfg env d).panicked = false) := by
  have hempty : ¬ (GoMap.empty : GoMap Bytes).len > 0 := by simp [GoMap.len, GoMap.empty]
  refine ⟨?_, ?_, ?_⟩
  · by_cases hpan : (fetchAPISpecs cfg env d.services.List d.ignoredServices).loop.panicked = true
    · rw [fetchAPISpecs_panicked_newSpecs _ _ _ _ hpan, if_neg hempty]
      simp [discover, hpan]
    · simp only [discover, hpan, if_false]
      unfold fetchAPISpecs
      cases hl : loadRewritesDoc cfg env with
      | none => simp [lenOpt, hempty]
      | some rewritesDoc =>
        simp only []
        by_cases hlen : (serviceLoop cfg env rewritesDoc d.services.List
            ⟨GoMap.empty, [], d.ignoredServices, false⟩).newSpecs.len > 0
        · have hne : ¬ (serviceLoop cfg env rewritesDoc d.services.List
              ⟨GoMap.empty, [], d.ignoredServices, false⟩).newSpecs.len = 0 := by omega
          simp [hlen, lenOpt, hne]
        · simp [hlen, lenOpt]
  · unfold discover
    simp only []
    split
    · rfl
    · split
      · rfl
      · split <;> rfl
  · intro hfail
    unfold fetchAPISpecs at hfail
    unfold discover fetchAPISpecs
    cases hl : loadRewritesDoc cfg env with
    | none => simp [lenOpt]
    | some rewritesDoc =>
      have hloop := serviceLoop_all_fail cfg env rewritesDoc d.services.List
        ⟨GoMap.empty, [], d.ignoredServices, false⟩
        (by
          intro loc hloc
          apply hfail loc
          simp only [hl]
          split <;> exact hloc)
      simp only [hloop.1, hempty, if_false, hloop.2, lenOpt]
      simp

/-- C6 at a concrete cycle: every fetch fails, and the published set of `stateOne` is
as before. -/
theorem discover_replaces_or_keeps_witness :
    (discover cfgRewrites envFetchFails stateOne).state.specs = stateOne.specs ∧
      (discover cfgRewrites envFetchFails stateOne).panicked = false :=
  (discover_replaces_or_keeps cfgRewrites envFetchFails stateOne).2.2
    (by
      intro loc _ svcSpec h
      unfold loadSpec at h
      split at h
      · cases h
      · simp [envFetchFails] at h)

/-- A cycle on `stateOne` in which the document of `svc` loads: the published set is
replaced by the candidate set, which holds `specs/svc`; the old entry
`specs/old` is gone. -/
theorem discover_replaces_example :
    (discover cfgRewrites envOK stateOne).state.specs.get "specs/svc" = some [] ∧
      (discover cfgRewrites envOK stateOne).state.specs.get "specs/old" = none ∧
      (discover cfgRewrites envOK stateOne).state.specs.len = 1 ∧
      (discover cfgRewrites envOK stateOne).panicked = false := by
  decide

/-- Without a rewrite-policy source `rewritesDoc` is nil, and the cycle publishes
nothing: `fetchAPISpecs` ends with an empty `newSpecs`, whatever was loaded. -/
theorem no_policy_publishes_nothing (cfg : Config) (env : Env) (services : List Service)
    (ignoredServices : List String) (hcfg : cfg.SpecRewrites = "") :
    (fetchAPISpecs cfg env services ignoredServices).loop.newSpecs = GoMap.empty ∧
      (fetchAPISpecs cfg env services ignoredServices).ret = none := by
  have hl : loadRewritesDoc cfg env = some none := by simp [loadRewritesDoc, hcfg]
  have hn : (serviceLoop cfg env none services
      ⟨GoMap.empty, [], ignoredServices, false⟩).newSpecs = GoMap.empty :=
    serviceLoop_nil_newSpecs cfg env services ⟨GoMap.empty, [], ignoredServices, false⟩
  have hempty : ¬ (GoMap.empty : GoMap Bytes).len > 0 := by simp [GoMap.len, GoMap.empty]
  simp only [fetchAPISpecs, hl, hn, hempty, if_false]
  exact ⟨trivial, trivial⟩

/-- With a nil `rewritesDoc`, a port loop that does not panic has seen every load it
attempted fail. -/
theorem portLoop_nil_not_panicked (cfg : Config) (env : Env) (hostName : String)
    (ports : List Port) :
    ∀ st : LoopState, (portLoop cfg env none hostName ports st).panicked = false →
      ∀ loc ∈ (portLoop cfg env none hostName ports st).attempts,
        loc ∈ st.attempts ∨ ∀ svcSpec, loadSpec env loc ≠ Except.ok svcSpec := by
  induction ports with
  | nil => intro st _ loc hloc; exact Or.inl hloc
  | cons p rest ih =>
    intro st
    by_cases hp : p.Protocol.IsHTTP = false
    · rw [portLoop, if_pos hp]; exact ih st
    · rw [portLoop, if_neg hp]
      simp only [Document.Spec]
      cases hl : loadSpec env (location hostName p.Port) with
      | error e =>
        simp only []
        intro hpan loc hloc
        rcases ih _ hpan loc hloc with h | h
        · simp only [List.mem_append, List.mem_singleton] at h
          rcases h with h | h
          · exact Or.inl h
          · right
            intro svcSpec hok
            rw [h, hl] at hok
            cases hok
        · exact Or.inr h
      | ok svcSpec =>
        simp only []
        intro hpan
        cases hpan

/-- With a nil `rewritesDoc`, a service loop that does not panic has seen every load it
attempted fail. -/
theorem serviceLoop_nil_not_panicked (cfg : Config) (env : Env) (services : List Service) :
    ∀ st : LoopState, (serviceLoop cfg env none services st).panicked = false →
      ∀ loc ∈ (serviceLoop cfg env none services st).attempts,
        loc ∈ st.attempts ∨ ∀ svcSpec, loadSpec env loc ≠ Except.ok svcSpec := by
  induction services with
  | nil => intro st _ loc hloc; exact Or.inl hloc
  | cons s rest ih =>
    intro st
    rw [serviceLoop]
    split
    · exact ih st
    · simp only []
      split
      · intro hpan loc hloc
        exact ih _ hpan loc hloc
      · split
        · rename_i hp2
          intro hpan
          rw [hp2] at hpan
          cases hpan
        · rename_i hp2
          intro hpan loc hloc
          rcases ih _ hpan loc hloc with h | h
          · exact portLoop_nil_not_panicked cfg env s.Hostname s.Ports
              { st with ignoredServices := (inIgnoreList cfg st.ignoredServices s.Hostname).2 }
              (by simpa using hp2) loc h
          · exact Or.inr h

/-- Without a rewrite-policy source the cycle panics exactly when a load it attempted
succeeded: the first document that loads ends the cycle. -/
theorem no_policy_panics_iff (cfg : Config) (env : Env) (services : List Service)
    (ignoredServices : List String) (hcfg : cfg.SpecRewrites = "") :
    (fetchAPISpecs cfg env services ignoredServices).loop.panicked = true ↔
      ∃ loc ∈ (fetchAPISpecs cfg env services ignoredServices).loop.attempts,
        ∃ svcSpec, loadSpec env loc = Except.ok svcSpec := by
  have hl : loadRewritesDoc cfg env = some none := by simp [loadRewritesDoc, hcfg]
  have hrun : (fetchAPISpecs cfg env services ignoredServices).loop =
      serviceLoop cfg env none services ⟨GoMap.empty, [], ignoredServices, false⟩ := by
    simp only [fetchAPISpecs, hl]
    split <;> rfl
  rw [hrun]
  constructor
  · intro hpan
    by_contra hno
    have hall : ∀ loc ∈ (serviceLoop cfg env none services
        ⟨GoMap.empty, [], ignoredServices, false⟩).attempts,
        ∀ svcSpec, loadSpec env loc ≠ Except.ok svcSpec := by
      intro loc hloc svcSpec hok
      exact hno ⟨loc, hloc, svcSpec, hok⟩
    have := (serviceLoop_all_fail cfg env none services _ hall).2
    rw [hpan] at this
    cases this
  · rintro ⟨loc, hloc, svcSpec, hok⟩
    by_contra hpan
    have hpan' : (serviceLoop cfg env none services
        ⟨GoMap.empty, [], ignoredServices, false⟩).panicked = false := by simpa using hpan
    rcases serviceLoop_nil_not_panicked cfg env services _ hpan' loc hloc with h | h
    · cases h
    · exact h svcSpec hok

/-- C7 (failing input): no rewrite-policy source is configured, the catalog holds one
service `svc` with an HTTP port 80, and its document loads. The cycle attempts
`svc:80`, then panics on `rewritesDoc.Spec()` with `newSpecs` still empty, and
so does `discover()`: the document is neither transformed nor published. -/
theorem no_policy_cycle_panics :
    cfg0.SpecRewrites = "" ∧
      (fetchAPISpecs cfg0 envOK [svcHTTP] []).loop.attempts = ["svc:80"] ∧
      (loadSpec envOK "svc:80").toOption = some doc0 ∧
      (fetchAPISpecs cfg0 envOK [svcHTTP] []).loop.panicked = true ∧
      (fetchAPISpecs cfg0 envOK [svcHTTP] []).loop.newSpecs.len = 0 ∧
      (discover cfg0 envOK stateOne).panicked = true := by
  decide

/-- C9: when a rewrite-policy source is configured and loading it or analysing it
fails, `fetchAPISpecs` attempts no load, returns nil without panicking, and
`discover()` leaves the state, the published set included, as it was. -/
theorem policy_failure_keeps_published (cfg : Config) (env : Env) (d : State)
    (hcfg : cfg.SpecRewrites ≠ "")
    (hfail : env.YAMLDoc cfg.SpecRewrites = none ∨
      ∃ data, env.YAMLDoc cfg.SpecRewrites = some data ∧ env.Analyzed data = none) :
    (fetchAPISpecs cfg env d.services.List d.ignoredServices).loop.attempts = [] ∧
      (fetchAPISpecs cfg env d.services.List d.ignoredServices).ret = none ∧
      (fetchAPISpecs cfg env d.services.List d.ignoredServices).loop.panicked = false ∧
      (discover cfg env d).state = d ∧
      (discover cfg env d).panicked = false := by
  have hl : loadRewritesDoc cfg env = none := by
    rcases hfail with h | ⟨data, h1, h2⟩
    · simp [loadRewritesDoc, hcfg, h]
    · simp [loadRewritesDoc, hcfg, h1, h2]
  simp [discover, fetchAPISpecs, hl, lenOpt]

/-- C9 at a concrete cycle: the policy source `rewrites.yaml` cannot be loaded. -/
theorem policy_failure_keeps_published_witness :
    (fetchAPISpecs cfgRewrites envNoPolicy stateOne.services.List
        stateOne.ignoredServices).loop.attempts = [] ∧
      (fetchAPISpecs cfgRewrites envNoPolicy stateOne.services.List
        stateOne.ignoredServices).ret = none ∧
      (fetchAPISpecs cfgRewrites envNoPolicy stateOne.services.List
        stateOne.ignoredServices).loop.panicked = false ∧
      (discover cfgRewrites envNoPolicy stateOne).state = stateOne ∧
      (discover cfgRewrites envNoPolicy stateOne).panicked = false :=
  policy_failure_keeps_published cfgRewrites envNoPolicy stateOne (by decide) (Or.inl rfl)

/-- The method `IsHTTP` holds for HTTP, HTTP2 and GRPC and for no other protocol. -/
theorem IsHTTP_iff (p : Protocol) :
    p.IsHTTP = true ↔ p = ProtocolHTTP ∨ p = ProtocolHTTP2 ∨ p = ProtocolGRPC := by
  unfold Protocol.IsHTTP
  split_ifs with h
  · simp [h]
  · simp [h]

/-- C10 (counterexample): the policy source cannot be loaded; the catalog holds the
service `svc`, not ignore-listed, with an HTTP port 80. The cycle attempts no
location, although `svc:80` is a location of such a service and port. -/
theorem policy_failure_skips_eligible_port :
    (fetchAPISpecs cfgRewrites envNoPolicy [svcHTTP] []).loop.attempts = [] ∧
      expectedAttempts cfgRewrites [] [svcHTTP] = ["svc:80"] := by
  decide

/-- C10 (amended): in a cycle whose rewrite policy is configured and loads, the cycle
does not panic and the locations handed to `loadSpec` are exactly
`hostname:port` for each service with a non-empty hostname that is not
ignore-listed and each of its ports that `IsHTTP`, in the order of the services
and of the ports; so they are in a cycle without a policy source that does not
panic; in every cycle the attempted locations are a prefix of that list;
`IsHTTP` holds for exactly HTTP, HTTP2 and GRPC among the nine protocols; a
service none of whose ports `IsHTTP` leaves the loop state untouched. -/
theorem attempts_are_http_locations (cfg : Config) (env : Env) (services : List Service)
    (ignoredServices : List String) :
    (∀ data doc, cfg.SpecRewrites ≠ "" → env.YAMLDoc cfg.SpecRewrites = some data →
        env.Analyzed data = some doc →
        (fetchAPISpecs cfg env services ignoredServices).loop.panicked = false ∧
        (fetchAPISpecs cfg env services ignoredServices).loop.attempts =
          expectedAttempts cfg ignoredServices services) ∧
      (cfg.SpecRewrites = "" →
        (fetchAPISpecs cfg env services ignoredServices).loop.panicked = false →
        (fetchAPISpecs cfg env services ignoredServices).loop.attempts =
          expectedAttempts cfg ignoredServices services) ∧
      (fetchAPISpecs cfg env services ignoredServices).loop.attempts <+:
        expectedAttempts cfg ignoredServices services ∧
      (∀ p : Protocol, p.IsHTTP = true ↔
        p = ProtocolHTTP ∨ p = ProtocolHTTP2 ∨ p = ProtocolGRPC) ∧
      ([ProtocolGRPC, ProtocolHTTPS, ProtocolHTTP2, ProtocolHTTP, ProtocolTCP, ProtocolUDP,
          ProtocolMongo, ProtocolRedis, ProtocolUnsupported].map Protocol.IsHTTP =
        [true, false, true, true, false, false, false, false, false]) ∧
      (∀ (rewritesDoc : Option Document) (s : Service) (st : LoopState),
        (∀ p ∈ s.Ports, p.Protocol.IsHTTP = false) →
        portLoop cfg env rewritesDoc s.Hostname s.Ports st = st) := by
  refine ⟨?_, ?_, ?_, IsHTTP_iff, by decide, ?_⟩
  · intro data doc hcfg hy ha
    have hl : loadRewritesDoc cfg env = some (some doc) := by
      simp [loadRewritesDoc, hcfg, hy, ha]
    obtain ⟨extra, h1, _, h3⟩ := serviceLoop_attempts cfg env (some doc) services
      ⟨GoMap.empty, [], ignoredServices, false⟩
    have hpan := serviceLoop_some_panicked cfg env doc services
      ⟨GoMap.empty, [], ignoredServices, false⟩
    have hx := h3 hpan
    simp only [fetchAPISpecs, hl]
    split <;> simp [h1, hx, hpan]
  · intro hcfg
    have hl : loadRewritesDoc cfg env = some none := by simp [loadRewritesDoc, hcfg]
    obtain ⟨extra, h1, _, h3⟩ := serviceLoop_attempts cfg env none services
      ⟨GoMap.empty, [], ignoredServices, false⟩
    simp only [fetchAPISpecs, hl]
    split <;> intro hpan <;> simp [h1, h3 hpan]
  · unfold fetchAPISpecs
    cases hl : loadRewritesDoc cfg env with
    | none => simp
    | some rewritesDoc =>
      obtain ⟨extra, h1, h2, _⟩ := serviceLoop_attempts cfg env rewritesDoc services
        ⟨GoMap.empty, [], ignoredServices, false⟩
      simp only []
      split <;> simpa [h1] using h2
  · intro rewritesDoc s st
    generalize s.Ports = ports
    induction ports with
    | nil => intro _; rfl
    | cons p rest ih =>
      intro h
      rw [portLoop, if_pos (h p (List.mem_cons_self _ _))]
      exact ih (fun q hq => h q (List.mem_cons_of_mem _ hq))

/-- C10 at a concrete cycle: the policy loads; the catalog holds `svc` with the HTTP
port 80; the cycle attempts `svc:80` and nothing else. -/
theorem attempts_are_http_locations_witness :
    (fetchAPISpecs cfgRewrites envOK [svcA, svcB] []).loop.panicked = false ∧
      (fetchAPISpecs cfgRewrites envOK [svcA, svcB] []).loop.attempts = ["a:80", "b:9090"] :=
  (attempts_are_http_locations cfgRewrites envOK [svcA, svcB] []).1 [] ⟨doc0⟩
    (by decide) rfl rfl

/-! ## One failing service among N -/

/-- Distinct hostnames have distinct publish paths. -/
theorem publishPath_inj (cfg : Config) (h1 h2 : String)
    (h : publishPath cfg h1 = publishPath cfg h2) : h1 = h2 := by
  have hd := congrArg String.data h
  simp only [publishPath, String.data_append, List.append_cancel_left_eq] at hd
  exact String.ext hd

/-- The port loop only looks at the ports that `IsHTTP`. -/
theorem portLoop_filter (cfg : Config) (env : Env) (rewritesDoc : Option Document)
    (hostName : String) (ports : List Port) :
    ∀ st : LoopState,
      portLoop cfg env rewritesDoc hostName ports st =
        portLoop cfg env rewritesDoc hostName
          (ports.filter (fun p => p.Protocol.IsHTTP)) st := by
  induction ports with
  | nil => intro st; rfl
  | cons p rest ih =>
    intro st
    by_cases hp : p.Protocol.IsHTTP = false
    · have hf : (p :: rest).filter (fun p => p.Protocol.IsHTTP) =
          rest.filter (fun p => p.Protocol.IsHTTP) := by simp [hp]
      rw [portLoop, if_pos hp, hf]
      exact ih st
    · have hp' : p.Protocol.IsHTTP = true := by simpa using hp
      have hf : (p :: rest).filter (fun p => p.Protocol.IsHTTP) =
          p :: rest.filter (fun p => p.Protocol.IsHTTP) := by simp [hp']
      rw [hf, portLoop, portLoop, if_neg hp, if_neg hp]
      simp only [ih]

/-- One round of the port loop for a service with a single HTTP port, under a loaded
policy. -/
theorem portLoop_single (cfg : Config) (env : Env) (doc : Document) (s : Service)
    (hs : (httpPorts s).length = 1) (st : LoopState) :
    (portLoop cfg env (some doc) s.Hostname s.Ports st).newSpecs =
      publishStep cfg env doc.spec st.newSpecs s := by
  rw [portLoop_filter]
  have hfilter : s.Ports.filter (fun p => p.Protocol.IsHTTP) = httpPorts s := rfl
  rw [hfilter]
  cases hl : httpPorts s with
  | nil => simp [hl] at hs
  | cons p rest =>
    cases rest with
    | cons q rest2 => simp [hl] at hs
    | nil =>
      have hmem : p ∈ httpPorts s := by rw [hl]; exact List.mem_cons_self _ _
      have hp : p.Protocol.IsHTTP = true := by
        have := List.mem_filter.mp hmem
        simpa using this.2
      have hp' : ¬ p.Protocol.IsHTTP = false := by simp [hp]
      rw [portLoop, if_neg hp']
      simp only [publishStep, transformedBytes, hl, Document.Spec]
      cases hload : loadSpec env (location s.Hostname p.Port) with
      | error e => simp [portLoop]
      | ok svcSpec =>
        simp only [processSpec_some]
        cases env.MarshalJSON (processSpecDoc cfg (some doc.spec) svcSpec).state with
        | none => simp [portLoop]
        | some outdata => simp [portLoop]

/-- The candidate set after the service loop, when no service is skipped and each has
a single HTTP port, under a loaded policy. -/
theorem serviceLoop_newSpecs (cfg : Config) (env : Env) (doc : Document)
    (services : List Service) :
    ∀ st : LoopState, st.panicked = false →
      (∀ s ∈ services, eligible cfg st.ignoredServices s = true ∧ (httpPorts s).length = 1) →
      (serviceLoop cfg env (some doc) services st).newSpecs =
        services.foldl (publishStep cfg env doc.spec) st.newSpecs := by
  induction services with
  | nil => intro st _ _; rfl
  | cons s rest ih =>
    intro st hpan hall
    have hs := hall s (List.mem_cons_self _ _)
    have hel : s.Hostname ≠ "" ∧ (inIgnoreList cfg st.ignoredServices s.Hostname).1 = false := by
      simpa [eligible] using hs.1
    have hi : ¬ (inIgnoreList cfg st.ignoredServices s.Hostname).1 = true := by simp [hel.2]
    have hp2 : ¬ (portLoop cfg env (some doc) s.Hostname s.Ports
        { st with ignoredServices :=
          (inIgnoreList cfg st.ignoredServices s.Hostname).2 }).panicked = true := by
      rw [portLoop_some_panicked]
      simp [hpan]
    rw [serviceLoop, if_neg hel.1]
    simp only []
    rw [if_neg hi, if_neg hp2, List.foldl_cons]
    rw [ih _ (by simpa using hp2)]
    · rw [portLoop_single cfg env doc s hs.2]
    · intro t ht
      rw [portLoop_ignoredServices]
      simp only [eligible_cached]
      exact hall t (List.mem_cons_of_mem _ ht)

/-- Under a key that is the publish path of no service of the list, the fold of
`publishStep` leaves the map as it was. -/
theorem foldl_publishStep_other (cfg : Config) (env : Env) (policy : Swagger)
    (services : List Service) (path : String)
    (hpath : ∀ s ∈ services, path ≠ publishPath cfg s.Hostname) :
    ∀ m : GoMap Bytes,
      (services.foldl (publishStep cfg env policy) m).get path = m.get path := by
  induction services with
  | nil => intro m; rfl
  | cons s rest ih =>
    intro m
    rw [List.foldl_cons, ih (fun t ht => hpath t (List.mem_cons_of_mem _ ht))]
    unfold publishStep
    cases transformedBytes cfg env policy s with
    | none => rfl
    | some data => exact GoMap.get_set_ne _ _ _ _ (hpath s (List.mem_cons_self _ _))

/-- Under the publish path of a service of a list with distinct hostnames, the fold of
`publishStep` leaves what that service publishes, or the old value if it
publishes nothing. -/
theorem foldl_publishStep_mem (cfg : Config) (env : Env) (policy : Swagger)
    (services : List Service) (hnd : (services.map Service.Hostname).Nodup) :
    ∀ (m : GoMap Bytes) (s : Service), s ∈ services →
      (services.foldl (publishStep cfg env policy) m).get (publishPath cfg s.Hostname) =
        match transformedBytes cfg env policy s with
        | some data => some data
        | none => m.get (publishPath cfg s.Hostname) := by
  induction services with
  | nil => intro m s hs; cases hs
  | cons t rest ih =>
    intro m s hs
    have hnd' := List.nodup_cons.mp hnd
    rw [List.foldl_cons]
    rcases List.mem_cons.mp hs with rfl | hrest
    · rw [foldl_publishStep_other]
      · unfold publishStep
        cases transformedBytes cfg env policy s with
        | none => rfl
        | some data => simp [GoMap.get_set_self]
      · intro u hu heq
        apply hnd'.1
        rw [publishPath_inj cfg _ _ heq]
        exact List.mem_map_of_mem _ hu
    · rw [ih hnd'.2 _ s hrest]
      have hne : publishPath cfg s.Hostname ≠ publishPath cfg t.Hostname := by
        intro heq
        apply hnd'.1
        rw [← publishPath_inj cfg _ _ heq]
        exact List.mem_map_of_mem _ hrest
      have hm : (publishStep cfg env policy m t).get (publishPath cfg s.Hostname) =
          m.get (publishPath cfg s.Hostname) := by
        unfold publishStep
        cases transformedBytes cfg env policy t with
        | none => rfl
        | some data => exact GoMap.get_set_ne _ _ _ _ hne
      rw [hm]

/-- The map `fetchAPISpecs` returns holds what `newSpecs` holds: nil stands for the
empty `newSpecs`. -/
theorem fetchAPISpecs_ret_get (cfg : Config) (env : Env) (services : List Service)
    (ignoredServices : List String) (doc : Document)
    (hl : loadRewritesDoc cfg env = some (some doc)) (path : String) :
    getOpt (fetchAPISpecs cfg env services ignoredServices).ret path =
      (serviceLoop cfg env (some doc) services
        ⟨GoMap.empty, [], ignoredServices, false⟩).newSpecs.get path := by
  simp only [fetchAPISpecs, hl]
  split
  · rfl
  · rename_i hlen
    rw [GoMap.get_of_len_zero _ hlen]
    rfl

/-- C8: the catalog holds services with pairwise distinct, non-empty, not ignore-listed
hostnames, each with exactly one port that `IsHTTP`; the rewrite policy is
configured and loads; the fetch of the service `bad` fails and every other
service's document loads and serialises. Then `fetchAPISpecs` does not panic and
the map it returns holds, under the publish path of every service other than
`bad`, the serialisation of that service's transformed document, and nothing
under any other key, the publish path of `bad` included. -/
theorem one_failure_publishes_the_rest (cfg : Config) (env : Env) (services : List Service)
    (ignoredServices : List String) (data : Bytes) (doc : Document) (bad : Service)
    (hcfg : cfg.SpecRewrites ≠ "")
    (hy : env.YAMLDoc cfg.SpecRewrites = some data)
    (ha : env.Analyzed data = some doc)
    (hdistinct : (services.map Service.Hostname).Nodup)
    (hhost : ∀ s ∈ services,
      s.Hostname ≠ "" ∧ (inIgnoreList cfg ignoredServices s.Hostname).1 = false)
    (hport : ∀ s ∈ services, (httpPorts s).length = 1)
    (hbad : bad ∈ services)
    (hfail : ∀ p ∈ httpPorts bad,
      (loadSpec env (location bad.Hostname p.Port)).toOption = none)
    (hok : ∀ s ∈ services, s ≠ bad → ∀ p ∈ httpPorts s,
      ∃ svcSpec outdata,
        loadSpec env (location s.Hostname p.Port) = Except.ok svcSpec ∧
        env.MarshalJSON (processSpecDoc cfg (some doc.spec) svcSpec).state = some outdata) :
    (fetchAPISpecs cfg env services ignoredServices).loop.panicked = false ∧
      (∀ s ∈ services, s ≠ bad →
        ∃ p svcSpec outdata,
          httpPorts s = [p] ∧
          loadSpec env (location s.Hostname p.Port) = Except.ok svcSpec ∧
          env.MarshalJSON (processSpecDoc cfg (some doc.spec) svcSpec).state = some outdata ∧
          getOpt (fetchAPISpecs cfg env services ignoredServices).ret
            (publishPath cfg s.Hostname) = some outdata) ∧
      (∀ path, (∀ s ∈ services, s ≠ bad → path ≠ publishPath cfg s.Hostname) →
        getOpt (fetchAPISpecs cfg env services ignoredServices).ret path = none) ∧
      getOpt (fetchAPISpecs cfg env services ignoredServices).ret
        (publishPath cfg bad.Hostname) = none := by
  have hl : loadRewritesDoc cfg env = some (some doc) := by
    simp [loadRewritesDoc, hcfg, hy, ha]
  have hnew := serviceLoop_newSpecs cfg env doc services
    ⟨GoMap.empty, [], ignoredServices, false⟩ rfl
    (fun s hs => ⟨by simp [eligible, (hhost s hs).1, (hhost s hs).2], hport s hs⟩)
  have hget : ∀ path,
      getOpt (fetchAPISpecs cfg env services ignoredServices).ret path =
        (services.foldl (publishStep cfg env doc.spec) GoMap.empty).get path := by
    intro path
    rw [fetchAPISpecs_ret_get cfg env services ignoredServices doc hl, hnew]
  -- a service with a single HTTP port
  have hsingle : ∀ s ∈ services, ∃ p, httpPorts s = [p] := by
    intro s hs
    have h1 := hport s hs
    cases hp : httpPorts s with
    | nil => simp [hp] at h1
    | cons p rest =>
      cases rest with
      | nil => exact ⟨p, rfl⟩
      | cons q rest2 => simp [hp] at h1
  -- the failing service publishes nothing
  have hbadNone : transformedBytes cfg env doc.spec bad = none := by
    obtain ⟨p, hp⟩ := hsingle bad hbad
    have hf := hfail p (by rw [hp]; exact List.mem_cons_self _ _)
    simp only [transformedBytes, hp]
    cases hload : loadSpec env (location bad.Hostname p.Port) with
    | error e => rfl
    | ok svcSpec => simp [hload, Except.toOption] at hf
  have hbadPath : (services.foldl (publishStep cfg env doc.spec) GoMap.empty).get
      (publishPath cfg bad.Hostname) = none := by
    rw [foldl_publishStep_mem cfg env doc.spec services hdistinct _ bad hbad, hbadNone]
    rfl
  refine ⟨?_, ?_, ?_, ?_⟩
  · simp only [fetchAPISpecs, hl]
    split <;> exact serviceLoop_some_panicked _ _ _ _ _
  · intro s hs hne
    obtain ⟨p, hp⟩ := hsingle s hs
    obtain ⟨svcSpec, outdata, h1, h2⟩ := hok s hs hne p (by rw [hp]; exact List.mem_cons_self _ _)
    refine ⟨p, svcSpec, outdata, hp, h1, h2, ?_⟩
    rw [hget, foldl_publishStep_mem cfg env doc.spec services hdistinct _ s hs]
    simp [transformedBytes, hp, h1, h2]
  · intro path hpath
    rw [hget]
    by_cases hb : path = publishPath cfg bad.Hostname
    · rw [hb]; exact hbadPath
    · rw [foldl_publishStep_other]
      · rfl
      · intro s hs
        by_cases hsb : s = bad
        · rw [hsb]; exact hb
        · exact hpath s hs hsb
  · rw [hget]; exact hbadPath

/-- C8 at a concrete cycle: the catalog holds `a` and `b`, the fetch from `a:80` fails,
and the returned map holds the document of `b` under `specs/b` and nothing
under `specs/a`. -/
theorem one_failure_publishes_the_rest_witness :
    (fetchAPISpecs cfgRewrites envAFails [svcA, svcB] []).loop.panicked = false ∧
      getOpt (fetchAPISpecs cfgRewrites envAFails [svcA, svcB] []).ret "specs/b" = some [7] ∧
      getOpt (fetchAPISpecs cfgRewrites envAFails [svcA, svcB] []).ret "specs/a" = none := by
  have h := one_failure_publishes_the_rest cfgRewrites envAFails [svcA, svcB] [] [] ⟨doc0⟩ svcA
    (by decide) rfl rfl (by decide) (by decide) (by decide) (by decide) (by decide)
    (by
      intro s hs hne p hp
      have hsB : s = svcB := by
        rcases List.mem_cons.mp hs with h1 | h1
        · exact absurd h1 hne
        · simpa using h1
      subst hsB
      have hpB : p = ⟨"grpc", 9090, ProtocolGRPC⟩ := by
        have hports : httpPorts svcB = [⟨"grpc", 9090, ProtocolGRPC⟩] := by decide
        rw [hports] at hp
        simpa using hp
      subst hpB
      exact ⟨doc0, [7], rfl, rfl⟩)
  refine ⟨h.1, ?_, h.2.2.2⟩
  obtain ⟨p, svcSpec, outdata, _, _, h3, h4⟩ := h.2.1 svcB (by decide) (by decide)
  have h5 : outdata = [7] := by
    have : envAFails.MarshalJSON (processSpecDoc cfgRewrites (some doc0) svcSpec).state =
        some [7] := rfl
    rw [this] at h3
    exact (Option.some.inj h3).symm
  rw [← h5]
  exact h4


/-! ## Protocol names -/

/-- On a string of ASCII runes the general `strings.ToLower` is the ASCII one. -/
theorem stringsToLower_ascii (table : Char → Char) (s : String)
    (h : ∀ c ∈ s.data, c.val ≤ 127) : stringsToLower table s = ToLower s := by
  unfold stringsToLower ToLower
  congr 1
  apply List.map_congr_left
  intro c hc
  simp [unicodeToLower, h c hc]

/-- A rune list that writes a name of lower-case ASCII letters and digits in some mix of
cases lowers to the name. -/
theorem caseVariant_lower (table : Char → Char) (cs ns : List Char)
    (hn : ∀ n ∈ ns, unicodeToLower table n = n ∧ unicodeToLower table n.toUpper = n)
    (h : caseVariant cs ns = true) : cs.map (unicodeToLower table) = ns := by
  induction cs generalizing ns with
  | nil =>
    cases ns with
    | nil => rfl
    | cons n ns => simp [caseVariant] at h
  | cons c cs ih =>
    cases ns with
    | nil => simp [caseVariant] at h
    | cons n ns =>
      simp only [caseVariant, Bool.and_eq_true, Bool.or_eq_true, beq_iff_eq] at h
      have hn0 := hn n (List.mem_cons_self _ _)
      have hrest := ih ns (fun m hm => hn m (List.mem_cons_of_mem _ hm)) h.2
      rw [List.map_cons, hrest]
      rcases h.1 with h1 | h1
      · rw [h1, hn0.1]
      · rw [h1, hn0.2]

/-- The runes of the eight protocol names are fixed by lowering, and so are their
upper-case forms once lowered. -/
theorem protocolNames_runes (table : Char → Char) :
    ∀ np ∈ protocolNames, ∀ n ∈ np.1.data,
      unicodeToLower table n = n ∧ unicodeToLower table n.toUpper = n := by
  intro np hnp n hn
  simp only [protocolNames, List.mem_cons, List.mem_singleton, List.not_mem_nil, or_false] at hnp
  rcases hnp with rfl | rfl | rfl | rfl | rfl | rfl | rfl | rfl <;>
    simp only [List.mem_cons, List.mem_singleton, List.not_mem_nil, or_false] at hn <;>
    (repeat' rcases hn with rfl | hn) <;> exact ⟨rfl, rfl⟩

/-- C14: `ConvertCaseInsensitiveStringToProtocol` ignores letter case. Each of the eight
names tcp, udp, grpc, http, http2, https, mongo and redis, written in any mix
of upper and lower case, gives its protocol; the string value of each of the
nine `Protocol` constants gives that constant; every string whose lower-case
form is none of the eight names gives `ProtocolUnsupported`, the empty string
and `SMTP` among them. -/
theorem convert_ignores_case (table : Char → Char) :
    (∀ s : String, ∀ np ∈ protocolNames, caseVariant s.data np.1.data = true →
        ConvertCaseInsensitiveStringToProtocol table s = np.2) ∧
      (∀ p ∈ protocolConstants, ConvertCaseInsensitiveStringToProtocol table p.name = p) ∧
      (∀ s : String, (∀ np ∈ protocolNames, stringsToLower table s ≠ np.1) →
        ConvertCaseInsensitiveStringToProtocol table s = ProtocolUnsupported) ∧
      ConvertCaseInsensitiveStringToProtocol table "" = ProtocolUnsupported ∧
      ConvertCaseInsensitiveStringToProtocol table "SMTP" = ProtocolUnsupported := by
  refine ⟨?_, ?_, ?_, rfl, rfl⟩
  · intro s np hnp hcv
    have hl : stringsToLower table s = np.1 := by
      apply String.ext
      exact caseVariant_lower table s.data np.1.data (protocolNames_runes table np hnp) hcv
    simp only [protocolNames, List.mem_cons, List.mem_singleton, List.not_mem_nil,
      or_false] at hnp
    rcases hnp with rfl | rfl | rfl | rfl | rfl | rfl | rfl | rfl <;>
      simp only [ConvertCaseInsensitiveStringToProtocol, hl] <;> rfl
  · intro p hp
    simp only [protocolConstants, List.mem_cons, List.mem_singleton, List.not_mem_nil,
      or_false] at hp
    rcases hp with rfl | rfl | rfl | rfl | rfl | rfl | rfl | rfl | rfl <;> rfl
  · intro s hs
    have h := fun name p hmem => hs (name, p) hmem
    simp only [ConvertCaseInsensitiveStringToProtocol]
    rw [if_neg (h "tcp" ProtocolTCP (by decide)), if_neg (h "udp" ProtocolUDP (by decide)),
      if_neg (h "grpc" ProtocolGRPC (by decide)), if_neg (h "http" ProtocolHTTP (by decide)),
      if_neg (h "http2" ProtocolHTTP2 (by decide)), if_neg (h "https" ProtocolHTTPS (by decide)),
      if_neg (h "mongo" ProtocolMongo (by decide)), if_neg (h "redis" ProtocolRedis (by decide))]

/-- The test pairs of `TestConvertCaseInsensitiveStringToProtocol`, and a protocol
written `REDİS` with a dotted capital I, which a case table that lowers that rune
to `i` turns into `redis`. -/
theorem convert_test_pairs :
    ["tcp", "http", "HTTP", "Http", "https", "http2", "grpc", "udp", "Mongo", "mongo", "MONGO",
        "Redis", "redis", "REDIS", "", "SMTP"].map
        (ConvertCaseInsensitiveStringToProtocol id) =
      [ProtocolTCP, ProtocolHTTP, ProtocolHTTP, ProtocolHTTP, ProtocolHTTPS, ProtocolHTTP2,
        ProtocolGRPC, ProtocolUDP, ProtocolMongo, ProtocolMongo, ProtocolMongo, ProtocolRedis,
        ProtocolRedis, ProtocolRedis, ProtocolUnsupported, ProtocolUnsupported] ∧
      ConvertCaseInsensitiveStringToProtocol
        (fun r => if r = Char.ofNat 304 then 'i' else r) "REDİS" = ProtocolRedis := by
  decide

/-! ## Service keys -/

theorem stringLE_iff (a b : String) : stringLE a b ↔ a ≤ b :=
  String.le_iff_toList_le.symm

instance : IsTotal String stringLE :=
  ⟨fun a b => by simpa only [stringLE_iff] using le_total a b⟩

instance : IsTrans String stringLE :=
  ⟨fun a b c hab hbc => by
    rw [stringLE_iff] at hab hbc ⊢
    exact le_trans hab hbc⟩

instance : IsAntisymm String stringLE :=
  ⟨fun a b hab hba => by
    rw [stringLE_iff] at hab hba
    exact le_antisymm hab hba⟩

/-- The slice `sort.Strings` leaves is ascending and is a rearrangement of the names. -/
theorem sortStrings_sorted_perm (l : List String) :
    List.Sorted (fun a b : String => a ≤ b) (sortStrings l) ∧ (sortStrings l).Perm l := by
  refine ⟨?_, List.perm_insertionSort _ _⟩
  have h := List.sorted_insertionSort stringLE l
  exact h.imp (fun hab => (stringLE_iff _ _).mp hab)

/-- Two rearrangements of the same names sort to the same slice. -/
theorem sortStrings_perm (l l' : List String) (h : l.Perm l') : sortStrings l = sortStrings l' :=
  List.eq_of_perm_of_sorted
    (((List.perm_insertionSort stringLE l).trans h).trans
      (List.perm_insertionSort stringLE l').symm)
    (List.sorted_insertionSort stringLE l) (List.sorted_insertionSort stringLE l')

/-- The first loop of `serviceKey` collects the names of the named ports, in port order. -/
theorem foldl_names (servicePorts : List Port) (acc : List String) :
    servicePorts.foldl (fun ports p => if p.Name = "" then ports else ports ++ [p.Name]) acc =
      acc ++ portNames servicePorts := by
  induction servicePorts generalizing acc with
  | nil => simp [portNames]
  | cons p rest ih =>
    rw [List.foldl_cons, ih]
    by_cases hp : p.Name = ""
    · simp [portNames, hp]
    · simp [portNames, hp]

theorem intercalate_go_append (pre acc sep : String) (l : List String) :
    String.intercalate.go (pre ++ acc) sep l = pre ++ String.intercalate.go acc sep l := by
  induction l generalizing acc with
  | nil => rfl
  | cons a rest ih =>
    simp only [String.intercalate.go]
    rw [String.append_assoc, String.append_assoc, ← String.append_assoc acc, ih]

/-- The last loop of `serviceKey`, past the first name, appends a comma and a name per
name. -/
theorem writeNames_pos (i : Nat) (hi : i > 0) (names : List String) (buffer : String) :
    writeNames i names buffer = String.intercalate.go buffer "," names := by
  induction names generalizing i buffer with
  | nil => rfl
  | cons a rest ih =>
    simp only [writeNames, hi, if_true, String.intercalate.go]
    exact ih (i + 1) (Nat.succ_pos i) _

/-- The last loop of `serviceKey` appends the names joined by commas. -/
theorem writeNames_zero (names : List String) (buffer : String) :
    writeNames 0 names buffer = buffer ++ ",".intercalate names := by
  cases names with
  | nil => simp [writeNames, String.intercalate]
  | cons a rest =>
    simp only [writeNames, gt_iff_lt, lt_self_iff_false, if_false, String.intercalate]
    rw [writeNames_pos 1 Nat.one_pos, intercalate_go_append]

/-- C15: `serviceKey` returns the hostname alone when no port has a non-empty name, and
otherwise the hostname, then `|`, then the non-empty port names joined by `,`
in ascending order: the sorted slice is ascending and a rearrangement of the
names of the named ports. Unnamed ports contribute nothing, and rearranging the
ports does not change the key. The hostname `example-service1.default` with
ports named `http` and `grpc` gives `example-service1.default|grpc,http`. -/
theorem serviceKey_sorted_names (hostname : String) (servicePorts : List Port) :
    serviceKey hostname servicePorts =
        (if portNames servicePorts = [] then hostname
          else hostname ++ "|" ++ ",".intercalate (sortStrings (portNames servicePorts))) ∧
      List.Sorted (fun a b : String => a ≤ b) (sortStrings (portNames servicePorts)) ∧
      (sortStrings (portNames servicePorts)).Perm (portNames servicePorts) ∧
      (∀ ports' : List Port, servicePorts.Perm ports' →
        serviceKey hostname ports' = serviceKey hostname servicePorts) ∧
      serviceKey "example-service1.default" [⟨"http", 80, ⟨""⟩⟩, ⟨"grpc", 90, ⟨""⟩⟩] =
        "example-service1.default|grpc,http" := by
  have hkey : ∀ ports : List Port, serviceKey hostname ports =
      (if portNames ports = [] then hostname
        else hostname ++ "|" ++ ",".intercalate (sortStrings (portNames ports))) := by
    intro ports
    unfold serviceKey
    cases ports with
    | nil => simp [portNames]
    | cons p rest =>
      have hfold := foldl_names (p :: rest) []
      rw [List.nil_append] at hfold
      simp only [List.length_cons, gt_iff_lt, Nat.zero_lt_succ, if_true, hfold, writeNames_zero]
      by_cases hn : portNames (p :: rest) = []
      · simp [hn, sortStrings, String.intercalate]
      · have hlen : 0 < (portNames (p :: rest)).length := List.length_pos.mpr hn
        simp [hn, hlen]
  refine ⟨hkey servicePorts, (sortStrings_sorted_perm _).1, (sortStrings_sorted_perm _).2, ?_,
    by decide⟩
  intro ports' hperm
  have hnames : (portNames servicePorts).Perm (portNames ports') :=
    (hperm.map _).filter _
  have hsort := sortStrings_perm _ _ hnames
  have hnil : portNames ports' = [] ↔ portNames servicePorts = [] := by
    constructor
    · intro h; rw [h] at hnames; exact List.Perm.eq_nil hnames
    · intro h; rw [h] at hnames; exact List.Perm.eq_nil hnames.symm
  rw [hkey, hkey, hsort]
  by_cases h : portNames servicePorts = []
  · simp [h, hnil.mpr h]
  · have h' : ¬ portNames ports' = [] := fun e => h (hnil.mp e)
    simp [h, h']

/-! ## The ignore list and the event handler -/

theorem hasPrefixChars_iff (s sub : List Char) : hasPrefixChars s sub = true ↔ sub <+: s := by
  induction s generalizing sub with
  | nil =>
    cases sub with
    | nil => simp [hasPrefixChars]
    | cons d ds => simp [hasPrefixChars]
  | cons c cs ih =>
    cases sub with
    | nil => simp [hasPrefixChars]
    | cons d ds =>
      simp only [hasPrefixChars, Bool.and_eq_true, beq_iff_eq, ih, List.cons_prefix_cons]
      constructor
      · rintro ⟨h1, h2⟩; exact ⟨h1.symm, h2⟩
      · rintro ⟨h1, h2⟩; exact ⟨h1.symm, h2⟩

/-- The call `strings.Contains` answers whether the second string is a substring of the
first. -/
theorem Contains_iff (s sub : String) : Contains s sub = true ↔ sub.data <:+: s.data := by
  unfold Contains
  generalize s.data = l
  generalize sub.data = m
  induction l with
  | nil => simp [containsChars]
  | cons c cs ih =>
    simp only [containsChars, Bool.or_eq_true, hasPrefixChars_iff, ih, List.infix_cons_iff]

/-- The function `inIgnoreList` answers whether the name is ignore-listed by the list in
effect. -/
theorem inIgnoreList_iff (cfg : Config) (ignoredServices : List String) (name : String) :
    (inIgnoreList cfg ignoredServices name).1 = true ↔
      ignoreListed (ignoreList cfg ignoredServices) name := by
  simp only [inIgnoreList, ignoreList, ignoreListed, List.any_eq_true, Contains_iff]

/-- A call of `inIgnoreList` does not change the list in effect. -/
theorem ignoreList_inIgnoreList (cfg : Config) (ignoredServices : List String) (name : String) :
    ignoreList cfg (inIgnoreList cfg ignoredServices name).2 = ignoreList cfg ignoredServices := by
  unfold ignoreList inIgnoreList
  by_cases h : ignoredServices.length = 0
  · by_cases h2 : cfg.DiscoveryServiceIgnoreList.length = 0
    · simp [h, h2]
    · simp [h, h2]
  · simp [h]

/-- The path `processSpec` returns with a document is the publish path of the hostname. -/
theorem processSpec_ok_path (cfg : Config) (env : Env) (hostname : String)
    (rewritesSpec : Option Swagger) (svcSpec : Swagger) (path : String) (data : Bytes)
    (h : processSpec cfg env hostname rewritesSpec (some svcSpec) = Outcome.ok (path, data)) :
    path = publishPath cfg hostname ∧
      env.MarshalJSON (processSpecDoc cfg rewritesSpec svcSpec).state = some data := by
  rw [processSpec_some] at h
  cases hm : env.MarshalJSON (processSpecDoc cfg rewritesSpec svcSpec).state with
  | none => simp [hm] at h
  | some outdata =>
    simp only [hm, Outcome.ok.injEq, Prod.mk.injEq] at h
    exact ⟨h.1.symm, by rw [h.2]⟩

/-- The port loop of a service writes under the publish path of its hostname only. -/
theorem portLoop_get_other (cfg : Config) (env : Env) (rewritesDoc : Option Document)
    (hostName : String) (ports : List Port) (path : String)
    (hpath : path ≠ publishPath cfg hostName) :
    ∀ st : LoopState,
      (portLoop cfg env rewritesDoc hostName ports st).newSpecs.get path =
        st.newSpecs.get path := by
  induction ports with
  | nil => intro st; rfl
  | cons p rest ih =>
    intro st
    by_cases hp : p.Protocol.IsHTTP = false
    · rw [portLoop, if_pos hp]; exact ih st
    · rw [portLoop, if_neg hp]
      simp only []
      split
      · rw [ih]
      · split
        · rfl
        · split
          · rfl
          · rw [ih]
          · rename_i path' data hproc
            rw [ih]
            have hp' := (processSpec_ok_path cfg env hostName _ _ path' data hproc).1
            rw [hp']
            exact GoMap.get_set_ne _ _ _ _ hpath

/-- The service loop writes nothing under the publish path of a hostname for which
`inIgnoreList` answers yes. -/
theorem serviceLoop_get_ignored (cfg : Config) (env : Env) (rewritesDoc : Option Document)
    (services : List Service) (hostname : String) :
    ∀ st : LoopState, (inIgnoreList cfg st.ignoredServices hostname).1 = true →
      (serviceLoop cfg env rewritesDoc services st).newSpecs.get (publishPath cfg hostname) =
        st.newSpecs.get (publishPath cfg hostname) := by
  induction services with
  | nil => intro st _; rfl
  | cons s rest ih =>
    intro st hign
    rw [serviceLoop]
    split
    · exact ih st hign
    · simp only []
      have hign1 : (inIgnoreList cfg (inIgnoreList cfg st.ignoredServices s.Hostname).2
          hostname).1 = true := by rw [inIgnoreList_cached]; exact hign
      split
      · rw [ih _ hign1]
      · rename_i hnot
        have hne : publishPath cfg hostname ≠ publishPath cfg s.Hostname := by
          intro heq
          have := publishPath_inj cfg _ _ heq
          rw [this] at hign
          exact hnot hign
        split
        · rw [portLoop_get_other _ _ _ _ _ _ hne]
        · rw [ih, portLoop_get_other _ _ _ _ _ _ hne]
          rw [portLoop_ignoredServices]
          exact hign1

/-- The service loop does not change the ignore list in effect. -/
theorem serviceLoop_ignoreList (cfg : Config) (env : Env) (rewritesDoc : Option Document)
    (services : List Service) :
    ∀ st : LoopState,
      ignoreList cfg (serviceLoop cfg env rewritesDoc services st).ignoredServices =
        ignoreList cfg st.ignoredServices := by
  induction services with
  | nil => intro st; rfl
  | cons s rest ih =>
    intro st
    have hc1 := ignoreList_inIgnoreList cfg st.ignoredServices s.Hostname
    rw [serviceLoop]
    split
    · exact ih st
    · simp only []
      split
      · rw [ih]; exact hc1
      · split
        · rw [portLoop_ignoredServices]; exact hc1
        · rw [ih, portLoop_ignoredServices]; exact hc1

/-- The cycle `discover()` touches neither the catalog nor the ignore list in effect. -/
theorem discover_catalog_ignoreList (cfg : Config) (env : Env) (d : State) :
    (discover cfg env d).state.services = d.services ∧
      ignoreList cfg (discover cfg env d).state.ignoredServices =
        ignoreList cfg d.ignoredServices := by
  have hcache : ignoreList cfg
      (fetchAPISpecs cfg env d.services.List d.ignoredServices).loop.ignoredServices =
        ignoreList cfg d.ignoredServices := by
    unfold fetchAPISpecs
    cases loadRewritesDoc cfg env with
    | none => rfl
    | some rewritesDoc =>
      simp only []
      split <;> exact serviceLoop_ignoreList cfg env rewritesDoc _ _
  unfold discover
  simp only []
  split
  · exact ⟨rfl, hcache⟩
  · split
    · exact ⟨rfl, hcache⟩
    · split <;> exact ⟨rfl, hcache⟩

theorem eraseKey_values_subset {V : Type} (l : List (String × V)) (k : String) (v : V)
    (h : v ∈ (eraseKey l k).map Prod.snd) : v ∈ l.map Prod.snd := by
  induction l with
  | nil => simp [eraseKey] at h
  | cons e rest ih =>
    obtain ⟨k', v'⟩ := e
    by_cases hk : k' = k
    · rw [eraseKey, if_pos hk] at h
      exact List.mem_cons_of_mem _ (ih h)
    · rw [eraseKey, if_neg hk, List.map_cons, List.mem_cons] at h
      rcases h with h | h
      · rw [h]; exact List.mem_cons_self _ _
      · exact List.mem_cons_of_mem _ (ih h)

/-- After `Insert` the catalog lists the inserted service and services it listed
before. -/
theorem ServiceMap.mem_List_Insert (m : ServiceMap) (s t : Service)
    (h : t ∈ (m.Insert s).List) : t = s ∨ t ∈ m.List := by
  simp only [ServiceMap.List, ServiceMap.Insert, GoMap.set, List.map_cons, List.mem_cons] at h
  rcases h with h | h
  · exact Or.inl h
  · exact Or.inr (eraseKey_values_subset _ _ _ h)

/-- After `Delete` the catalog lists only services it listed before, and none under the
hostname of the deleted service. -/
theorem ServiceMap.mem_List_Delete (m : ServiceMap) (s t : Service)
    (h : t ∈ (m.Delete s).List) : t ∈ m.List :=
  eraseKey_values_subset _ _ _ h

/-- One event: the ignore list in effect is as before, and a catalog without
ignore-listed hostnames stays so. -/
theorem updateServices_clean (cfg : Config) (env : Env) (d : State) (s : Service) (e : Event)
    (hclean : ∀ t ∈ d.services.List,
      ¬ ignoreListed (ignoreList cfg d.ignoredServices) t.Hostname) :
    ignoreList cfg (updateServices cfg env d s e).state.ignoredServices =
        ignoreList cfg d.ignoredServices ∧
      ∀ t ∈ (updateServices cfg env d s e).state.services.List,
        ¬ ignoreListed (ignoreList cfg d.ignoredServices) t.Hostname := by
  have hc1 := ignoreList_inIgnoreList cfg d.ignoredServices s.Hostname
  unfold updateServices
  simp only []
  by_cases hi : (inIgnoreList cfg d.ignoredServices s.Hostname).1 = true
  · rw [if_pos hi]
    exact ⟨hc1, hclean⟩
  · rw [if_neg hi]
    have hs : ¬ ignoreListed (ignoreList cfg d.ignoredServices) s.Hostname := fun h =>
      hi ((inIgnoreList_iff cfg d.ignoredServices s.Hostname).mpr h)
    -- the catalog after the switch on the event
    have hswitch : ∀ d1 : State, d1.ignoredServices = (inIgnoreList cfg d.ignoredServices
        s.Hostname).2 →
        (∀ t ∈ d1.services.List,
          ¬ ignoreListed (ignoreList cfg d.ignoredServices) t.Hostname) →
        ignoreList cfg (discover cfg env d1).state.ignoredServices =
            ignoreList cfg d.ignoredServices ∧
          ∀ t ∈ (discover cfg env d1).state.services.List,
            ¬ ignoreListed (ignoreList cfg d.ignoredServices) t.Hostname := by
      intro d1 h1 h2
      have hd := discover_catalog_ignoreList cfg env d1
      refine ⟨?_, ?_⟩
      · rw [hd.2, h1]; exact hc1
      · rw [hd.1]; exact h2
    split
    · apply hswitch _ rfl
      intro t ht
      rcases ServiceMap.mem_List_Insert _ _ _ ht with h | h
      · rw [h]; exact hs
      · exact hclean t h
    · split
      · apply hswitch _ rfl
        intro t ht
        exact hclean t (ServiceMap.mem_List_Delete _ _ _ ht)
      · exact hswitch _ rfl hclean

/-- Every state of a handled sequence of events has the ignore list in effect of the
start and a catalog without ignore-listed hostnames. -/
theorem handleEvents_clean (cfg : Config) (events : List (Env × Service × Event)) :
    ∀ d : State,
      (∀ t ∈ d.services.List, ¬ ignoreListed (ignoreList cfg d.ignoredServices) t.Hostname) →
      ∀ d' ∈ handleEvents cfg events d,
        ignoreList cfg d'.ignoredServices = ignoreList cfg d.ignoredServices ∧
          ∀ t ∈ d'.services.List,
            ¬ ignoreListed (ignoreList cfg d.ignoredServices) t.Hostname := by
  induction events with
  | nil => intro d _ d' hd'; cases hd'
  | cons ev rest ih =>
    obtain ⟨env, s, e⟩ := ev
    intro d hclean d' hd'
    have hstep := updateServices_clean cfg env d s e hclean
    rw [handleEvents] at hd'
    split at hd'
    · rw [List.mem_singleton] at hd'
      rw [hd']; exact hstep
    · rcases List.mem_cons.mp hd' with h | h
      · rw [h]; exact hstep
      · have hnext := ih (updateServices cfg env d s e).state
          (by rw [hstep.1]; exact hstep.2) d' h
        rw [hstep.1] at hnext
        exact hnext

/-- No candidate set has an entry under the publish path of an ignore-listed hostname,
whatever the catalog holds. -/
theorem fetchAPISpecs_ignored (cfg : Config) (env : Env) (services : List Service)
    (ignoredServices : List String) (hostname : String)
    (hign : ignoreListed (ignoreList cfg ignoredServices) hostname) :
    (fetchAPISpecs cfg env services ignoredServices).loop.newSpecs.get
        (publishPath cfg hostname) = none ∧
      getOpt (fetchAPISpecs cfg env services ignoredServices).ret
        (publishPath cfg hostname) = none := by
  have hi := (inIgnoreList_iff cfg ignoredServices hostname).mpr hign
  unfold fetchAPISpecs
  cases loadRewritesDoc cfg env with
  | none => exact ⟨rfl, rfl⟩
  | some rewritesDoc =>
    have h := serviceLoop_get_ignored cfg env rewritesDoc services hostname
      ⟨GoMap.empty, [], ignoredServices, false⟩ hi
    simp only []
    split
    · exact ⟨h, h⟩
    · exact ⟨h, rfl⟩

/-- C11: for every ignore list in effect, be it the configured one, as at the start of
the process, or the one the package variable holds, and every sequence of
events handled by `updateServices` from a catalog that holds no ignore-listed
hostname: after every event the list in effect is the same and the catalog
holds no service whose hostname contains an entry of the list as a substring;
and no candidate set of `fetchAPISpecs`, whatever the catalog, has an entry
under the publish path of such a hostname. -/
theorem ignore_listed_never_in_catalog (cfg : Config) (d : State)
    (events : List (Env × Service × Event))
    (hclean : ∀ s ∈ d.services.List,
      ¬ ignoreListed (ignoreList cfg d.ignoredServices) s.Hostname) :
    ignoreList cfg [] = cfg.DiscoveryServiceIgnoreList ∧
      (∀ d' ∈ handleEvents cfg events d,
        ignoreList cfg d'.ignoredServices = ignoreList cfg d.ignoredServices ∧
          ∀ s ∈ d'.services.List,
            ¬ ignoreListed (ignoreList cfg d.ignoredServices) s.Hostname) ∧
      (∀ (env : Env) (services : List Service) (ignoredServices : List String)
        (hostname : String), ignoreListed (ignoreList cfg ignoredServices) hostname →
        (fetchAPISpecs cfg env services ignoredServices).loop.newSpecs.get
            (publishPath cfg hostname) = none ∧
          getOpt (fetchAPISpecs cfg env services ignoredServices).ret
            (publishPath cfg hostname) = none) :=
  ⟨rfl, handleEvents_clean cfg events d hclean,
    fun env services ignoredServices hostname hi =>
      fetchAPISpecs_ignored cfg env services ignoredServices hostname hi⟩

/-- C11 at a concrete sequence: with the ignore list `["internal"]`, from the catalog of
`stateOne`, the events Add `internal-billing.svc`, Add `a`, Update
`internal-billing.svc`, Delete `svc`. -/
theorem ignore_listed_never_in_catalog_witness :
    ignoreList cfgIgnore [] = ["internal"] ∧
      ∀ d' ∈ handleEvents cfgIgnore
          [(envOK, svcInternal, EventAdd), (envOK, svcA, EventAdd),
            (envOK, svcInternal, EventUpdate), (envOK, svcHTTP, EventDelete)] stateOne,
        ignoreList cfgIgnore d'.ignoredServices = ["internal"] ∧
          ∀ s ∈ d'.services.List, ¬ ignoreListed ["internal"] s.Hostname :=
  ⟨rfl,
    (ignore_listed_never_in_catalog cfgIgnore stateOne _
      (by
        intro s hs
        have hno : ∀ t ∈ stateOne.services.List,
            (inIgnoreList cfgIgnore [] t.Hostname).1 = false := by decide
        intro hi
        have := (inIgnoreList_iff cfgIgnore [] s.Hostname).mpr hi
        rw [hno s hs] at this
        cases this)).2.1⟩

/-- The sequence of the witness, evaluated: `internal-billing.svc` is ignore-listed and
never enters the catalog, whose hostnames end as `a`; the last candidate set,
fetched from a catalog that does hold `internal-billing.svc`, has no entry for
it. -/
theorem internal_billing_blocked :
    (inIgnoreList cfgIgnore [] "internal-billing.svc").1 = true ∧
      (handleEvents cfgIgnore
          [(envOK, svcInternal, EventAdd), (envOK, svcA, EventAdd),
            (envOK, svcInternal, EventUpdate), (envOK, svcHTTP, EventDelete)] stateOne).map
          (fun d => d.services.List.map Service.Hostname) =
        [["svc"], ["a", "svc"], ["a", "svc"], ["a"]] ∧
      (fetchAPISpecs cfgIgnore envOK stateInternal.services.List []).loop.newSpecs.keys =
        ["specs/svc"] := by
  decide

/-- The cycle `discover()` does not touch the catalog. -/
theorem discover_services (cfg : Config) (env : Env) (d : State) :
    (discover cfg env d).state.services = d.services := by
  unfold discover
  simp only []
  split
  · rfl
  · split
    · rfl
    · split <;> rfl

/-- C12 (counterexample): the ignore list is `["internal"]`. A Delete event for
`internal-billing.svc` on `stateOne` does not reach `discover()` and leaves the
published set as it was, although a cycle on that state replaces it; and on a
state whose catalog holds `internal-billing.svc` the event leaves the service
in the catalog. -/
theorem delete_of_ignored_is_dropped :
    (updateServices cfgIgnore envOK stateOne svcInternal EventDelete).discovered = false ∧
      (updateServices cfgIgnore envOK stateOne svcInternal EventDelete).state.specs =
        stateOne.specs ∧
      (discover cfgIgnore envOK stateOne).state.specs ≠ stateOne.specs ∧
      (updateServices cfgIgnore envOK stateInternal svcInternal
        EventDelete).state.services.byHostname.get "internal-billing.svc" = some svcInternal := by
  decide

/-- C12 (amended): a Delete event for a service whose hostname is not ignore-listed
removes the service from the catalog and runs a discovery cycle on the catalog
without it; a Delete event for a service whose hostname is ignore-listed
returns before the catalog is touched and without a cycle. -/
theorem delete_event_handled (cfg : Config) (env : Env) (d : State) (s : Service) :
    ((inIgnoreList cfg d.ignoredServices s.Hostname).1 = false →
        (updateServices cfg env d s EventDelete).discovered = true ∧
        (updateServices cfg env d s EventDelete).state =
          (discover cfg env
            { d with
              ignoredServices := (inIgnoreList cfg d.ignoredServices s.Hostname).2
              services := d.services.Delete s }).state ∧
        (updateServices cfg env d s EventDelete).panicked =
          (discover cfg env
            { d with
              ignoredServices := (inIgnoreList cfg d.ignoredServices s.Hostname).2
              services := d.services.Delete s }).panicked ∧
        (updateServices cfg env d s EventDelete).state.services = d.services.Delete s ∧
        (updateServices cfg env d s EventDelete).state.services.byHostname.get s.Hostname =
          none) ∧
      ((inIgnoreList cfg d.ignoredServices s.Hostname).1 = true →
        (updateServices cfg env d s EventDelete).discovered = false ∧
        (updateServices cfg env d s EventDelete).panicked = false ∧
        (updateServices cfg env d s EventDelete).state =
          { d with ignoredServices := (inIgnoreList cfg d.ignoredServices s.Hostname).2 }) := by
  have hev : ¬ (EventDelete = EventAdd ∨ EventDelete = EventUpdate) := by decide
  constructor
  · intro hi
    have hst : (updateServices cfg env d s EventDelete).state =
        (discover cfg env
          { d with
            ignoredServices := (inIgnoreList cfg d.ignoredServices s.Hostname).2
            services := d.services.Delete s }).state := by
      simp [updateServices, hi, hev]
    refine ⟨by simp [updateServices, hi], hst, by simp [updateServices, hi, hev], ?_, ?_⟩
    · rw [hst, discover_services]
    · rw [hst, discover_services]
      exact GoMap.get_delete_self _ _
  · intro hi
    simp [updateServices, hi]

/-- C12 at a concrete event: deleting `svc`, not ignore-listed, from `stateOne` empties
the catalog and runs a cycle. -/
theorem delete_event_handled_witness :
    (updateServices cfgIgnore envOK stateOne svcHTTP EventDelete).discovered = true ∧
      (updateServices cfgIgnore envOK stateOne svcHTTP EventDelete).state.services.List = [] :=
  ⟨((delete_event_handled cfgIgnore envOK stateOne svcHTTP).1 (by decide)).1, by decide⟩

/-! ## Route registration -/

/-- The loop of `DiscoverRegisterRoutes` appends one route per entry, in the order of the
entries. -/
theorem registerLoop_eq (toSlash : String → String) (entries : List (String × Bytes)) :
    ∀ routes : List Route,
      registerLoop toSlash entries routes = routes ++ entries.map (routeOf toSlash) := by
  induction entries with
  | nil => intro routes; simp [registerLoop]
  | cons kv rest ih =>
    intro routes
    obtain ⟨path, data⟩ := kv
    rw [registerLoop, ih]
    simp [routeOf]

/-- C13: route registration is idempotent on the substitution table and the registered
routes. A call that finds the table built returns the state as it is. A first
call on a router registers one route per entry of the published set, after the
routes already there, and builds the table. After any call the table is built,
so that a later call, whatever the published set has become in between, leaves
the table and the routes as the first call left them: each route is registered
once, and an entry added after the first call gets no route. -/
theorem register_routes_once (cfg : RegisterConfig) (toSlash : String → String)
    (d : RegisterState) :
    (∀ table, d.specReplacer = some table →
        DiscoverRegisterRoutes cfg toSlash d = ⟨d, false⟩) ∧
      (∀ routes, d.specReplacer = none → d.router = some routes →
        (DiscoverRegisterRoutes cfg toSlash d).panicked = false ∧
        (DiscoverRegisterRoutes cfg toSlash d).state.router =
          some (routes ++ d.specs.entries.map (routeOf toSlash)) ∧
        (DiscoverRegisterRoutes cfg toSlash d).state.specReplacer =
          some (replacementPairs cfg) ∧
        (DiscoverRegisterRoutes cfg toSlash d).state.specs = d.specs) ∧
      (∃ table, (DiscoverRegisterRoutes cfg toSlash d).state.specReplacer = some table) ∧
      (∀ specs' : GoMap Bytes,
        DiscoverRegisterRoutes cfg toSlash
            { (DiscoverRegisterRoutes cfg toSlash d).state with specs := specs' } =
          ⟨{ (DiscoverRegisterRoutes cfg toSlash d).state with specs := specs' }, false⟩) := by
  have hbuilt : ∃ table, (DiscoverRegisterRoutes cfg toSlash d).state.specReplacer =
      some table := by
    unfold DiscoverRegisterRoutes
    cases hr : d.specReplacer with
    | some table => exact ⟨table, by simp [hr]⟩
    | none =>
      simp only []
      split
      · exact ⟨_, rfl⟩
      · split <;> exact ⟨_, rfl⟩
  have hnoop : ∀ d' : RegisterState, ∀ table, d'.specReplacer = some table →
      DiscoverRegisterRoutes cfg toSlash d' = ⟨d', false⟩ := by
    intro d' table h
    simp [DiscoverRegisterRoutes, h]
  refine ⟨hnoop d, ?_, hbuilt, ?_⟩
  · intro routes hr hrouter
    unfold DiscoverRegisterRoutes
    simp only [hr, hrouter]
    cases he : d.specs.entries with
    | nil => simp
    | cons kv rest => simp [registerLoop_eq]
  · intro specs'
    obtain ⟨table, ht⟩ := hbuilt
    exact hnoop _ table ht

/-- C13 at a concrete state: a first call on `registerStart` registers the routes of its
two entries; a second call, after a third entry was published, changes
nothing. -/
theorem register_routes_once_witness :
    DiscoverRegisterRoutes registerCfg id
        { (DiscoverRegisterRoutes registerCfg id registerStart).state with
          specs := (DiscoverRegisterRoutes registerCfg id registerStart).state.specs.set
            "discover/specs/c" [3] } =
      ⟨{ (DiscoverRegisterRoutes registerCfg id registerStart).state with
          specs := (DiscoverRegisterRoutes registerCfg id registerStart).state.specs.set
            "discover/specs/c" [3] }, false⟩ :=
  (register_routes_once registerCfg id registerStart).2.2.2 _

/-- The two calls of the witness, evaluated: the routes and the table after the second
call are those of the first, and the entry `discover/specs/c` has no route. -/
theorem register_routes_example :
    (DiscoverRegisterRoutes registerCfg id registerStart).state.router =
        some [⟨"/specs/b", "GET"⟩, ⟨"/specs/a", "GET"⟩] ∧
      (DiscoverRegisterRoutes registerCfg id registerStart).state.specReplacer =
        some ["http://b.local", "https://site.example", "http://a.local", "https://a.example"] ∧
      (DiscoverRegisterRoutes registerCfg id
          { (DiscoverRegisterRoutes registerCfg id registerStart).state with
            specs := (DiscoverRegisterRoutes registerCfg id registerStart).state.specs.set
              "discover/specs/c" [3] }).state.router =
        some [⟨"/specs/b", "GET"⟩, ⟨"/specs/a", "GET"⟩] ∧
      (DiscoverRegisterRoutes registerCfg id
          { registerStart with router := none }).panicked = true := by
  decide

/-! ## Services with several HTTP ports -/

/-- The cycle of the witness, evaluated: the candidate set has the two entries
`specs/multi`, with the bytes of port 81, and `specs/a`; the attempts are in
port order. -/
theorem multi_port_example :
    (fetchAPISpecs cfgRewrites envMulti [svcA, svcMulti] []).loop.newSpecs.entries =
        [("specs/multi", [2]), ("specs/a", [2])] ∧
      (fetchAPISpecs cfgRewrites envMulti [svcA, svcMulti] []).loop.attempts =
        ["a:80", "multi:80", "multi:81"] := by
  decide


end Discover
